import Mathlib

/-!
# mpkg: the installation transaction engine of `src/mypkg.c`

A shallow embedding of the package manager's core: the metadata reader, the dependency
verifier, the conflict detector, the extraction engine, the installed-package index, the
install / ghost-install / update / remove protocols and the stats aggregator.

Modelling decisions
* A C string is the list of its characters before the terminating NUL (`CStr`).
* The index directory `PKG_DB_PATH` is a list of its regular files in `readdir` order,
  each a pair of file name (`d_name`) and content. `PKG_DB_PATH` keeps its initial value.
  Every path the program builds with `snprintf(path, 512, "%s/%s<ext>", PKG_DB_PATH, name)`
  is represented by the file name that survives the truncation to 511 characters (`dbFile`).
* `locked` lists the index file names on which `fopen(_, "w")` and `unlink` fail.
* `disk` holds the files outside the index directory, keyed by absolute path; the archive
  writer and the `unlink` calls of `remove_package` act on it.
* Names are file-name stems and paths are compared as written: a package or dependency name
  with a directory part (`./bar`), an archive entry that lands inside the index directory
  and a manifest line that names an index file are outside this model.
* The package fetcher (`curl`), the clock and the outcome of every libarchive write are
  inputs: `Env.download`, `Env.now`, `Entry.hdr`, `Block.rd`, `Block.wr`.
* Messages printed to the terminal and the action log are not modelled.
-/

namespace Mpkg

/-- A C string: the characters before the terminating NUL. -/
abbrev CStr := List Char

/-- The NUL character. -/
def NUL : Char := Char.ofNat 0

/-- The newline character. -/
def NL : Char := Char.ofNat 10

/-- The C string held in a byte buffer: everything before the first NUL. -/
def cstr (buf : List Char) : CStr := buf.takeWhile (fun c => c != NUL)

/-- The test `strstr(h, n) != NULL`: `n` occurs somewhere in `h`. -/
def strstr : CStr → CStr → Bool
  | [], n => n.isEmpty
  | c :: h, n => n.isPrefixOf (c :: h) || strstr h n

/-- The tokens delivered by `strtok(s, delim)` followed by `strtok(NULL, delim)` until it
returns NULL: the maximal non-empty runs of characters other than `delim`. The second
argument is the token being collected, last character first. -/
def strtokFrom (delim : Char) : CStr → CStr → List CStr
  | [], tok => if tok.isEmpty then [] else [tok.reverse]
  | c :: rest, tok =>
      if c = delim then
        if tok.isEmpty then strtokFrom delim rest [] else tok.reverse :: strtokFrom delim rest []
      else strtokFrom delim rest (c :: tok)

/-- All tokens of `s` in order. -/
def strtokAll (delim : Char) (s : CStr) : List CStr := strtokFrom delim s []

/-- The buffers filled by successive `fgets(buf, n, f)` calls until end of file: each call
stores at most `n - 1` characters and stops after a newline. `room` is the number of
characters the current buffer can still take, `buf` what it holds, last character first. -/
def fgetsFrom (n : Nat) : CStr → Nat → CStr → List CStr
  | [], _, buf => if buf.isEmpty then [] else [buf.reverse]
  | c :: rest, room, buf =>
      if c = NL ∨ room ≤ 1 then (c :: buf).reverse :: fgetsFrom n rest (n - 1) []
      else fgetsFrom n rest (room - 1) (c :: buf)

/-- Every buffer `fgets(buf, n, f)` returns when reading the content `f` from its start. -/
def fgetsAll (n : Nat) (f : CStr) : List CStr := fgetsFrom n f (n - 1) []

/-- The statement `line[strcspn(line, "\n")] = 0`: the line up to its newline. -/
def chomp (line : List Char) : CStr := line.takeWhile (fun c => c != NL && c != NUL)

/-- The lines a `while (fgets(line, 1024, f))` loop sees after cutting the newline. -/
def fileLines (f : CStr) : List CStr := (fgetsAll 1024 f).map chomp

/-- A directory: file name and content of each regular file. -/
abbrev Dir := List (CStr × CStr)

/-- Content of the file called `k`, if there is one. -/
def fileGet (k : CStr) : Dir → Option CStr
  | [] => none
  | (n, c) :: fs => if n = k then some c else fileGet k fs

/-- Create or overwrite the file called `k`. -/
def filePut (k v : CStr) : Dir → Dir
  | [] => [(k, v)]
  | (n, c) :: fs => if n = k then (k, v) :: fs else (n, c) :: filePut k v fs

/-- Remove the file called `k`. -/
def fileDel (k : CStr) : Dir → Dir
  | [] => []
  | (n, c) :: fs => if n = k then fileDel k fs else (n, c) :: fileDel k fs

/-- The host state the program reads and mutates. -/
structure World where
  /-- regular files of the index directory, in `readdir` order -/
  db : Dir
  /-- index file names that can neither be opened for writing nor unlinked -/
  locked : List CStr
  /-- files outside the index directory, by absolute path -/
  disk : Dir
deriving DecidableEq

/-- Initial value of the global `PKG_DB_PATH`. -/
def PKG_DB_PATH : CStr := "/var/db/mpkg".toList

/-- The file name inside the index directory that
`snprintf(path, 512, "%s/%s<ext>", PKG_DB_PATH, package_name)` designates. -/
def dbFile (package_name ext : CStr) : CStr :=
  ((PKG_DB_PATH ++ '/' :: (package_name ++ ext)).take 511).drop (PKG_DB_PATH.length + 1)

/-- The function `is_installed`: does `<name>.installed` exist in the index directory? -/
def is_installed (w : World) (package_name : CStr) : Bool :=
  (fileGet (dbFile package_name ".installed".toList) w.db).isSome

/-- The struct `Package`. -/
structure Package where
  name : CStr
  version : CStr
  arch : CStr
  depends : CStr
  description : CStr
  /-- a `size_t` -/
  size : Nat
  /-- a `time_t` -/
  install_time : Int
deriving DecidableEq

/-- The struct after `memset(pkg, 0, sizeof(Package))`. -/
def Package.zero : Package := ⟨[], [], [], [], [], 0, 0⟩

/-- The characters `isspace` accepts in the C locale. -/
def isspace (c : Char) : Bool :=
  c = ' ' || c = Char.ofNat 9 || c = Char.ofNat 10 || c = Char.ofNat 11 || c = Char.ofNat 12
    || c = Char.ofNat 13

/-- Value of the leading decimal digits of a string. -/
def digitsVal : CStr → Nat → Nat
  | [], acc => acc
  | c :: cs, acc => if c.isDigit then digitsVal cs (acc * 10 + (c.toNat - 48)) else acc

/-- Largest `long`. -/
def LONG_MAX : Int := 2 ^ 63 - 1

/-- Smallest `long`. -/
def LONG_MIN : Int := -(2 ^ 63)

/-- The function `atol`: optional white space, optional sign, decimal digits; 0 when no
digit follows. A value outside `long` is clamped, as `strtol` does. -/
def atol (s : CStr) : Int :=
  match s.dropWhile isspace with
  | '-' :: ds => max LONG_MIN (-(digitsVal ds 0 : Int))
  | '+' :: ds => min LONG_MAX (digitsVal ds 0 : Int)
  | ds => min LONG_MAX (digitsVal ds 0 : Int)

/-- Conversion of a `long` to `size_t`. -/
def toSizeT (v : Int) : Nat := (v % 2 ^ 64).toNat

/-- One data block of an archive entry, with the status codes libarchive returns for it. -/
structure Block where
  /-- status of `archive_read_data_block` -/
  rd : Int
  bytes : List Char
  /-- status of `archive_write_data_block` -/
  wr : Int
deriving DecidableEq

/-- One archive entry, as `archive_read_next_header` delivers it with `ARCHIVE_OK`. -/
structure Entry where
  pathname : CStr
  /-- the test `archive_entry_filetype(e) == AE_IFREG` -/
  isReg : Bool
  blocks : List Block
  /-- status of `archive_write_header` for this entry -/
  hdr : Int
deriving DecidableEq

/-- The entries read before `archive_read_next_header` first returns something else than
`ARCHIVE_OK`. -/
abbrev Archive := List Entry

/-- Status of a libarchive call that worked. -/
def ARCHIVE_OK : Int := 0

/-- Status at the end of the data or of the archive. -/
def ARCHIVE_EOF : Int := 1

/-- Status of a libarchive call that failed for the current entry. -/
def ARCHIVE_FAILED : Int := -25

/-- The bytes of an entry, as `archive_read_data` copies them. -/
def Entry.payload (e : Entry) : List Char := (e.blocks.map Block.bytes).flatten

/-- Outcome of `download_package`. -/
inductive Download where
  /-- the `curl` command exits with a non-zero status -/
  | failed
  /-- the cache file was written; `none` when it cannot be opened as an archive -/
  | cached (file : Option Archive)
deriving DecidableEq

/-- What the outside world contributes to one transaction. -/
structure Env where
  download : Download
  /-- value of `time(NULL)` -/
  now : Int
deriving DecidableEq

/-! ## Metadata reader -/

/-- The test `!strcmp(name, "PKGINFO") || !strcmp(name, "./PKGINFO")` of `read_package_info`. -/
def isPkgInfo (name : CStr) : Bool := name = "PKGINFO".toList || name = "./PKGINFO".toList

/-- Body of the `while (line)` loop of `read_package_info`: one `key=value` line.
`strncpy(dst, src, sizeof(dst) - 1)` into the zeroed struct keeps the first
`sizeof(dst) - 1` characters. -/
def parseInfoLine (pkg : Package) (line : CStr) : Package :=
  if "name=".toList.isPrefixOf line then { pkg with name := (line.drop 5).take 255 }
  else if "version=".toList.isPrefixOf line then { pkg with version := (line.drop 8).take 63 }
  else if "arch=".toList.isPrefixOf line then { pkg with arch := (line.drop 5).take 15 }
  else if "description=".toList.isPrefixOf line then
    { pkg with description := (line.drop 12).take 511 }
  else if "depends=".toList.isPrefixOf line then { pkg with depends := (line.drop 8).take 1023 }
  else if "size=".toList.isPrefixOf line then { pkg with size := toSizeT (atol (line.drop 5)) }
  else pkg

/-- Decoding of the payload of the metadata entry: `strtok(buf, "\n")` lines, in order. -/
def parsePkgInfo (payload : List Char) : Package :=
  (strtokAll NL (cstr payload)).foldl parseInfoLine Package.zero

/-- The entry loop of `read_package_info`: the first entry called `PKGINFO` or `./PKGINFO`
is decoded, the entries before it are skipped. -/
def findPkgInfo : Archive → Option Package
  | [] => none
  | e :: es => if isPkgInfo e.pathname then some (parsePkgInfo e.payload) else findPkgInfo es

/-- The function `read_package_info` on the cache file; `none` is the NULL result. -/
def read_package_info : Option Archive → Option Package
  | none => none
  | some entries => findPkgInfo entries

/-! ## Dependency verifier -/

/-- The two trimming loops of `check_dependencies` applied to one token:
`while (*dep == ' ') dep++;` and then, with `e` on the last character,
`while (e > dep && *e == ' ') *e-- = '\0';`, which never clears the first character. -/
def trimDep (tok : CStr) : CStr :=
  match tok.dropWhile (fun c => c == ' ') with
  | [] => []
  | c :: rest => c :: (rest.reverse.dropWhile (fun c => c == ' ')).reverse

/-- The `while (dep)` loop of `check_dependencies`: the counter `miss` after the tokens. -/
def countMissing (w : World) : List CStr → Nat → Nat
  | [], miss => miss
  | tok :: toks, miss =>
      if is_installed w (trimDep tok) then countMissing w toks miss
      else countMissing w toks (miss + 1)

/-- The function `check_dependencies`. The local buffer `copy[1024]` is not initialised and
`strncpy(copy, depends, 1023)` writes no terminator when `depends` has 1023 characters or
more: what `strtok` then scans is not determined by the program, which is the result `none`. -/
def check_dependencies (w : World) (depends : CStr) : Option Int :=
  if depends.isEmpty then some 0
  else if 1023 ≤ depends.length then none
  else if countMissing w (strtokAll ',' depends) 0 ≠ 0 then some (-1)
  else some 0

/-- The `while (dep)` loop of `check_dependencies` when the answers of `is_installed` are
given by the function `installed`. -/
def countMissingWith (installed : CStr → Bool) : List CStr → Nat → Nat
  | [], miss => miss
  | tok :: toks, miss =>
      if installed (trimDep tok) then countMissingWith installed toks miss
      else countMissingWith installed toks (miss + 1)

/-- The function `check_dependencies` when the answers of `is_installed` are given by the
function `installed`; `check_dependencies w` is the case `installed = is_installed w`. -/
def check_dependencies_with (installed : CStr → Bool) (depends : CStr) : Option Int :=
  if depends.isEmpty then some 0
  else if 1023 ≤ depends.length then none
  else if countMissingWith installed (strtokAll ',' depends) 0 ≠ 0 then some (-1)
  else some 0

/-! ## Conflict detector -/

/-- The inner `while (fgets(opath, ...))` loop of `check_conflicts`: is `npath` a line of
the other manifest? -/
def pathListed (npath : CStr) : List CStr → Bool
  | [] => false
  | opath :: rest => if npath = opath then true else pathListed npath rest

/-- The `while (fgets(npath, ..., nf))` loop of `check_conflicts` against one other manifest:
is some remaining line of `nf` a line of `of`? -/
def anyListed (ofLines : List CStr) : List CStr → Bool
  | [] => false
  | npath :: rest => if pathListed npath ofLines then true else anyListed ofLines rest

/-- The `readdir` loop of `check_conflicts`. `nf` is what is left to read of the package's
own manifest: the stream is read to its end against the first other manifest and is not
rewound afterwards. -/
def conflictScan (package_name : CStr) : Dir → CStr → Int
  | [], _ => 0
  | (d_name, content) :: rest, nf =>
      if !strstr d_name ".files".toList || strstr d_name package_name then
        conflictScan package_name rest nf
      else if anyListed (fileLines content) (fileLines nf) then -1
      else conflictScan package_name rest []

/-- The function `check_conflicts`: 0 when `<name>.files` does not exist. -/
def check_conflicts (w : World) (package_name : CStr) : Int :=
  match fileGet (dbFile package_name ".files".toList) w.db with
  | none => 0
  | some nf => conflictScan package_name w.db nf

/-! ## Extraction engine -/

/-- The function `copy_data`: the status it returns for the data blocks of one entry. After
the last block `archive_read_data_block` returns `ARCHIVE_EOF`. -/
def copy_data : List Block → Int
  | [] => ARCHIVE_OK
  | b :: bs =>
      if b.rd = ARCHIVE_EOF then ARCHIVE_OK
      else if b.rd < ARCHIVE_OK then b.rd
      else if b.wr < ARCHIVE_OK then b.wr
      else copy_data bs

/-- The bytes `copy_data` hands to the disk writer before it returns. -/
def copiedBytes : List Block → List Char
  | [] => []
  | b :: bs =>
      if b.rd = ARCHIVE_EOF then []
      else if b.rd < ARCHIVE_OK then []
      else if b.wr < ARCHIVE_OK then []
      else b.bytes ++ copiedBytes bs

/-- The entries `extract_package` skips: a name that starts with `PKGINFO`, `FILES`,
`./PKGINFO` or `./FILES` (the four `strncmp` tests). -/
def isSkipped (name : CStr) : Bool :=
  "PKGINFO".toList.isPrefixOf name || "FILES".toList.isPrefixOf name ||
    "./PKGINFO".toList.isPrefixOf name || "./FILES".toList.isPrefixOf name

/-- The path `extract_package` prints for an entry: `p = name`, or `name + 1` when the name
starts with `./`; then `p` itself when it starts with `/`, else `/` followed by `p`. -/
def absPath (name : CStr) : CStr :=
  let p := if "./".toList.isPrefixOf name then name.drop 1 else name
  if p.head? = some '/' then p else '/' :: p

/-- Effect on the disk of `archive_write_header(ext, e); copy_data(a, ext);`: when the header
is accepted the file exists with the bytes that were copied. -/
def writeEntry (e : Entry) (disk : Dir) : Dir :=
  if e.hdr < ARCHIVE_OK then disk else filePut (absPath e.pathname) (copiedBytes e.blocks) disk

/-- The entry loop of `extract_package`: `fl` is the text written to the manifest so far.
The statuses of `archive_write_header` and `copy_data` are not looked at. -/
def extractLoop : Archive → CStr → Dir → CStr × Dir
  | [], fl, disk => (fl, disk)
  | e :: es, fl, disk =>
      if isSkipped e.pathname then extractLoop es fl disk
      else
        extractLoop es (if e.isReg then fl ++ absPath e.pathname ++ [NL] else fl)
          (writeEntry e disk)

/-- The function `extract_package` on the cache file: status and new state. -/
def extract_package (file : Option Archive) (w : World) (package_name : CStr) : Int × World :=
  match file with
  | none => (-1, w)
  | some entries =>
      if dbFile package_name ".files".toList ∈ w.locked then (-1, w)
      else
        let r := extractLoop entries [] w.disk
        (0, { w with db := filePut (dbFile package_name ".files".toList) r.1 w.db, disk := r.2 })

/-! ## Installed package index -/

/-- The `%ld` conversion. -/
def fmtLong (v : Int) : CStr :=
  if v < 0 then '-' :: Nat.toDigits 10 v.natAbs else Nat.toDigits 10 v.natAbs

/-- The text `mark_installed` prints into `<name>.installed`. -/
def recordText (now : Int) (package_name : CStr) : Option Package → CStr
  | none =>
      "name=".toList ++ package_name ++ [NL] ++
      "install_time=".toList ++ fmtLong now ++ [NL] ++ "installed=1".toList ++ [NL]
  | some pkg =>
      "name=".toList ++ pkg.name ++ [NL] ++
      "version=".toList ++ pkg.version ++ [NL] ++
      "arch=".toList ++ pkg.arch ++ [NL] ++
      "description=".toList ++ pkg.description ++ [NL] ++
      "depends=".toList ++ pkg.depends ++ [NL] ++
      "size=".toList ++ Nat.toDigits 10 pkg.size ++ [NL] ++
      "install_time=".toList ++ fmtLong now ++ [NL] ++ "installed=1".toList ++ [NL]

/-- The function `mark_installed`: -1 when the record file cannot be opened for writing. -/
def mark_installed (w : World) (now : Int) (package_name : CStr) (pkg : Option Package) :
    Int × World :=
  if dbFile package_name ".installed".toList ∈ w.locked then (-1, w)
  else
    (0, { w with db := filePut (dbFile package_name ".installed".toList)
                         (recordText now package_name pkg) w.db })

/-- Body of the `while (fgets(line, ...))` loop of `read_installed_package`. -/
def parseRecordLine (pkg : Package) (line : CStr) : Package :=
  if "name=".toList.isPrefixOf line then { pkg with name := (line.drop 5).take 255 }
  else if "version=".toList.isPrefixOf line then { pkg with version := (line.drop 8).take 63 }
  else if "arch=".toList.isPrefixOf line then { pkg with arch := (line.drop 5).take 15 }
  else if "description=".toList.isPrefixOf line then
    { pkg with description := (line.drop 12).take 511 }
  else if "depends=".toList.isPrefixOf line then { pkg with depends := (line.drop 8).take 1023 }
  else if "size=".toList.isPrefixOf line then { pkg with size := toSizeT (atol (line.drop 5)) }
  else if "install_time=".toList.isPrefixOf line then
    { pkg with install_time := atol (line.drop 13) }
  else pkg

/-- The function `read_installed_package`; `none` is the NULL result. -/
def read_installed_package (w : World) (package_name : CStr) : Option Package :=
  match fileGet (dbFile package_name ".installed".toList) w.db with
  | none => none
  | some f => some ((fileLines f).foldl parseRecordLine Package.zero)

/-- The clause `unlink(<index file>)` of `remove_package`. -/
def unlinkDb (w : World) (file : CStr) : World :=
  if file ∈ w.locked then w else { w with db := fileDel file w.db }

/-! ## Transaction orchestrator -/

/-- The dependency step shared by `install_package` and `ghost_install`:
`pkg && *pkg->depends && check_dependencies(pkg->depends)`; `none` as in
`check_dependencies`. -/
def depsFail (w : World) : Option Package → Option Bool
  | none => some false
  | some pkg =>
      if pkg.depends.isEmpty then some false
      else (check_dependencies w pkg.depends).map (fun r => r != 0)

/-- The function `install_package`: status and new state; `none` as in `check_dependencies`. -/
def install_package (env : Env) (w : World) (package_name : CStr) : Option (Int × World) :=
  if is_installed w package_name then some (0, w)
  else
    match env.download with
    | .failed => some (-1, w)
    | .cached file =>
        match depsFail w (read_package_info file) with
        | none => none
        | some true => some (-1, w)
        | some false =>
            if check_conflicts w package_name ≠ 0 then some (-1, w)
            else
              let x := extract_package file w package_name
              if x.1 ≠ 0 then some (-1, x.2)
              else some (0, (mark_installed x.2 env.now package_name (read_package_info file)).2)

/-- The function `ghost_install`: the install pipeline without the record. -/
def ghost_install (env : Env) (w : World) (package_name : CStr) : Option (Int × World) :=
  match env.download with
  | .failed => some (-1, w)
  | .cached file =>
      match depsFail w (read_package_info file) with
      | none => none
      | some true => some (-1, w)
      | some false =>
          if check_conflicts w package_name ≠ 0 then some (-1, w)
          else
            let x := extract_package file w package_name
            if x.1 ≠ 0 then some (-1, x.2) else some (0, x.2)

/-- The two nested `fgets` loops of `update_package` over `repo.db`: the `version=` value
that follows the first `name=<package_name>` line, or the empty string. -/
def repoVersion (package_name : CStr) : List CStr → CStr
  | [] => []
  | line :: rest =>
      if "name=".toList.isPrefixOf line && line.drop 5 = package_name then
        match rest.find? (fun l => "version=".toList.isPrefixOf l) with
        | some l => (l.drop 8).take 63
        | none => []
      else repoVersion package_name rest

/-- The function `update_package`: status and new state. -/
def update_package (env : Env) (w : World) (package_name : CStr) : Int × World :=
  match read_installed_package w package_name with
  | none => (-1, w)
  | some loc =>
      match fileGet "repo.db".toList w.db with
      | none => (-1, w)
      | some f =>
          let ver := repoVersion package_name (fileLines f)
          if ver.isEmpty then (-1, w)
          else if loc.version = ver then (0, w)
          else
            match env.download with
            | .failed => (-1, w)
            | .cached file =>
                match read_package_info file with
                | none => (-1, w)
                | some pkg =>
                    if check_conflicts w package_name ≠ 0 then (-1, w)
                    else
                      let x := extract_package file w package_name
                      if x.1 ≠ 0 then (-1, x.2)
                      else (0, (mark_installed x.2 env.now package_name (some pkg)).2)

/-- The `while (fgets(path, ...))` loop of `remove_package`: `unlink` of every non-empty
line, with the counters `ok` and `fail`; `unlink` fails on a path that does not exist. -/
def unlinkListed : List CStr → Dir → Nat → Nat → Dir × Nat × Nat
  | [], disk, ok, fail => (disk, ok, fail)
  | path :: rest, disk, ok, fail =>
      if path.isEmpty then unlinkListed rest disk ok fail
      else if (fileGet path disk).isSome then unlinkListed rest (fileDel path disk) (ok + 1) fail
      else unlinkListed rest disk ok (fail + 1)

/-- The function `remove_package`: status and new state. -/
def remove_package (w : World) (package_name : CStr) : Int × World :=
  if !is_installed w package_name then (0, w)
  else
    let w1 :=
      match fileGet (dbFile package_name ".files".toList) w.db with
      | none => w
      | some f =>
          unlinkDb { w with disk := (unlinkListed (fileLines f) w.disk 0 0).1 }
            (dbFile package_name ".files".toList)
    (0, unlinkDb w1 (dbFile package_name ".installed".toList))

/-! ## Stats aggregator -/

/-- One element of the array `top[5]` of `show_stats`. -/
structure TopSlot where
  name : CStr
  /-- a `size_t` -/
  sz : Nat
deriving DecidableEq

/-- The array after `top[5] = {0}`. -/
def TopSlot.zeros : List TopSlot := List.replicate 5 ⟨[], 0⟩

/-- The loop `for (int i = 0; i < 5; i++)` of `show_stats`, from the slot at the head of the
list on: the first slot whose size is smaller than `size` takes the record; `memmove` has
moved that slot and the ones after it one place down, and the last one is lost. -/
def topInsert (name : CStr) (size : Nat) : List TopSlot → List TopSlot
  | [] => []
  | s :: rest =>
      if size > s.sz then ⟨name.take 255, size⟩ :: (s :: rest).dropLast
      else s :: topInsert name size rest

/-- The variables `pkgs`, `total` and `top` of `show_stats`. -/
structure Stats where
  /-- an `int` -/
  pkgs : Nat
  /-- a `size_t` -/
  total : Nat
  top : List TopSlot
deriving DecidableEq

/-- The block `if (p) { ... }` of `show_stats` for one record, given with the name it was
read under: `pkgs++`, `total += p->size` in `size_t` arithmetic, and the insertion. -/
def statsStep (st : Stats) (r : CStr × Package) : Stats :=
  { pkgs := st.pkgs + 1,
    total := (st.total + r.2.size) % 2 ^ 64,
    top := topInsert r.1 r.2.size st.top }

/-- The variables of `show_stats` after the records have been processed in order. -/
def statsLoop (records : List (CStr × Package)) : Stats :=
  records.foldl statsStep ⟨0, 0, TopSlot.zeros⟩

/-- The statement `*strstr(name, ".installed") = '\0'`: the name up to the first
`.installed`. -/
def recordName : CStr → CStr
  | [] => []
  | c :: rest => if ".installed".toList.isPrefixOf (c :: rest) then [] else c :: recordName rest

/-- The records the `readdir` loop of `show_stats` reads, in order: for every file name that
contains `.installed` (at most 255 characters, as file names are), the record of the name in
front of it when `read_installed_package` finds one. -/
def statsRecords (w : World) : List (CStr × Package) :=
  w.db.filterMap (fun f =>
    if strstr f.1 ".installed".toList then
      (read_installed_package w (recordName (f.1.take 255))).map
        (fun p => (recordName (f.1.take 255), p))
    else none)

/-- Largest `int`. -/
def INT_MAX : Nat := 2 ^ 31 - 1

/-- The function `show_stats`: the values it prints. The counter `pkgs` is an `int`; a run
that would take it past `INT_MAX` has no defined result, which is `none`. -/
def show_stats (w : World) : Option Stats :=
  if INT_MAX < (statsLoop (statsRecords w)).pkgs then none
  else some (statsLoop (statsRecords w))

/-- The lines of the final loop `for (int i = 0; i < 5 && top[i].sz; i++)`: the slots in
front of the first one whose size is 0. -/
def reportedTop (st : Stats) : List TopSlot := st.top.takeWhile (fun s => s.sz != 0)

/-! ## Reference definitions and concrete index states used by the theorems -/

/-- The File Manifests of the index: every file of the index directory whose name ends in
`.files`, with its lines. -/
def manifests (w : World) : List (CStr × List CStr) :=
  (w.db.filter (fun f => ".files".toList.isSuffixOf f.1)).map (fun f => (f.1, fileLines f.2))

/-- Ownership invariant of the index: the manifests of two distinct packages share no path. -/
def ownershipInvariant (w : World) : Prop :=
  (manifests w).Pairwise (fun a b => ∀ p ∈ a.2, p ∉ b.2)

instance (w : World) : Decidable (ownershipInvariant w) := by
  unfold ownershipInvariant; infer_instance

/-- The paths listed in the File Manifest of a package; empty when it has no manifest. -/
def manifestOf (w : World) (package_name : CStr) : List CStr :=
  match fileGet (dbFile package_name ".files".toList) w.db with
  | none => []
  | some f => fileLines f

/-- Removal of the space characters at both ends of a name. -/
def trimSpaces (s : CStr) : CStr :=
  ((s.dropWhile (fun c => c == ' ')).reverse.dropWhile (fun c => c == ' ')).reverse

/-- The strings `check_dependencies` looks up, written with `List.splitOn`: the non-empty
pieces between the commas, each with the spaces around it removed (a piece made of spaces
only gives the empty string). -/
def depNames (depends : CStr) : List CStr :=
  ((depends.splitOn ',').filter (fun s => !s.isEmpty)).map trimSpaces

/-- Removal of the white space (`isspace`) at both ends of a name. -/
def trimWhitespace (s : CStr) : CStr :=
  ((s.dropWhile isspace).reverse.dropWhile isspace).reverse

/-- The names of a comma-separated dependency list when the white space around each name is
trimmed: the pieces between the commas, trimmed, those with nothing left dropped. -/
def whitespaceNames (depends : CStr) : List CStr :=
  ((depends.splitOn ',').map trimWhitespace).filter (fun s => !s.isEmpty)

/-- The names of a comma-separated dependency list when the space character alone is
trimmed: the pieces between the commas with the spaces at their two ends removed, those with
nothing left dropped. -/
def spaceNames (depends : CStr) : List CStr :=
  ((depends.splitOn ',').map trimSpaces).filter (fun s => !s.isEmpty)

/-- One data block that is read and written without error. -/
def okBlock (s : String) : Block := ⟨ARCHIVE_OK, s.toList, ARCHIVE_OK⟩

/-- An index in which `bar` is installed and owns `/bin/x`. -/
def barWorld : World :=
  { db := [("bar.installed".toList, "name=bar\nversion=2.0\n".toList),
           ("bar.files".toList, "/bin/x\n".toList)],
    locked := [],
    disk := [("/bin/x".toList, "x of bar".toList)] }

/-- An archive for `foo` whose regular file `bin/x` is the path owned by `bar`. -/
def fooArchive : Archive :=
  [⟨"PKGINFO".toList, true, [okBlock "name=foo\nversion=1.0\n"], ARCHIVE_OK⟩,
   ⟨"bin/x".toList, true, [okBlock "x of foo"], ARCHIVE_OK⟩]

/-- The fetcher delivers `fooArchive`. -/
def fooEnv : Env := ⟨.cached (some fooArchive), 1700000000⟩

/-- An index in which `foo` 0.9 owns `/bin/y`, `bar` owns `/bin/x`, and the catalog offers
`foo` 1.0. -/
def updWorld : World :=
  { db := [("bar.installed".toList, "name=bar\nversion=2.0\n".toList),
           ("bar.files".toList, "/bin/x\n".toList),
           ("foo.installed".toList, "name=foo\nversion=0.9\n".toList),
           ("foo.files".toList, "/bin/y\n".toList),
           ("repo.db".toList, "name=foo\nversion=1.0\ndescription=demo\n".toList)],
    locked := [],
    disk := [("/bin/x".toList, "x of bar".toList), ("/bin/y".toList, "y of foo".toList)] }

/-- The empty index. -/
def emptyWorld : World := ⟨[], [], []⟩

/-- The archive of the scenario `name=foo, version=1.0, depends=bar`. -/
def fooNeedsBar : Archive :=
  [⟨"PKGINFO".toList, true, [okBlock "name=foo\nversion=1.0\ndepends=bar\n"], ARCHIVE_OK⟩,
   ⟨"bin/foo".toList, true, [okBlock "payload"], ARCHIVE_OK⟩]

/-- An index in which `foo`, `aaa` and `bar` have manifests, `aaa` listed first, and `foo`
shares `/bin/x` with `bar`. -/
def sharedWorld : World :=
  { db := [("aaa.files".toList, "/bin/y\n".toList),
           ("bar.files".toList, "/bin/x\n".toList),
           ("foo.files".toList, "/bin/x\n".toList)],
    locked := [], disk := [] }

/-- The manifests of `sharedWorld` with `bar` listed first. -/
def sharedWorldBarFirst : World :=
  { db := [("bar.files".toList, "/bin/x\n".toList),
           ("aaa.files".toList, "/bin/y\n".toList),
           ("foo.files".toList, "/bin/x\n".toList)],
    locked := [], disk := [] }

/-- An index in which `foo` shares `/bin/x` with the package `foobar`. -/
def substringWorld : World :=
  { db := [("foobar.files".toList, "/bin/x\n".toList),
           ("foo.files".toList, "/bin/x\n".toList)],
    locked := [], disk := [] }

/-- An archive for `foo` with one regular file and no dependency. -/
def plainArchive : Archive :=
  [⟨"PKGINFO".toList, true, [okBlock "name=foo\nversion=1.0\n"], ARCHIVE_OK⟩,
   ⟨"bin/foo".toList, true, [okBlock "payload"], ARCHIVE_OK⟩]

/-- The state a ghost install of `plainArchive` leaves on the empty index: a manifest for
`foo` and no record. -/
def ghostWorld : World :=
  { db := [("foo.files".toList, "/bin/foo\n".toList)],
    locked := [],
    disk := [("/bin/foo".toList, "payload".toList)] }

/-- An index whose manifest for `foo` lists one file that exists and one that does not. -/
def fooInstalledWorld : World :=
  { db := [("foo.installed".toList, "name=foo\nversion=1.0\n".toList),
           ("foo.files".toList, "/bin/foo\n/bin/gone\n".toList)],
    locked := [],
    disk := [("/bin/foo".toList, "payload".toList)] }

/-- An index in which `foo` is installed and its record file cannot be unlinked. -/
def stuckRecordWorld : World :=
  { db := [("foo.installed".toList, "name=foo\nversion=1.0\n".toList),
           ("foo.files".toList, "/bin/foo\n".toList)],
    locked := ["foo.installed".toList],
    disk := [("/bin/foo".toList, "payload".toList)] }

/-- An index in which `foo` is installed and its manifest file cannot be unlinked. -/
def stuckManifestWorld : World :=
  { db := [("foo.installed".toList, "name=foo\nversion=1.0\n".toList),
           ("foo.files".toList, "/bin/foo\n".toList)],
    locked := ["foo.files".toList],
    disk := [("/bin/foo".toList, "payload".toList)] }

/-- A descriptor payload whose `depends` line carries 1016 characters. -/
def longDependsInfo : List Char :=
  "name=foo\nversion=1.0\ndepends=".toList ++ List.replicate 1016 'a' ++ [NL]

/-- An archive whose first entry fails while its data is written, whose second entry is
refused by `archive_write_header`, and whose third entry is written. -/
def failingArchive : Archive :=
  [⟨"bin/a".toList, true, [⟨ARCHIVE_OK, "aaaa".toList, ARCHIVE_FAILED⟩], ARCHIVE_OK⟩,
   ⟨"bin/b".toList, true, [okBlock "bbbb"], ARCHIVE_FAILED⟩,
   ⟨"bin/c".toList, true, [okBlock "cccc"], ARCHIVE_OK⟩]

/-- An empty index in which the record file of `foo` cannot be opened for writing. -/
def lockedRecordWorld : World :=
  { db := [], locked := ["foo.installed".toList], disk := [] }

/-- The files the entry loop of `extract_package` puts on the disk, in order: path and bytes
of every entry that is not skipped and whose header is accepted. -/
def diskWrites : Archive → List (CStr × CStr)
  | [] => []
  | e :: es =>
      if isSkipped e.pathname || decide (e.hdr < ARCHIVE_OK) then diskWrites es
      else (absPath e.pathname, copiedBytes e.blocks) :: diskWrites es

/-- Creation or overwriting of a sequence of files, first to last. -/
def putAll : List (CStr × CStr) → Dir → Dir
  | [], d => d
  | (k, v) :: ps, d => putAll ps (filePut k v d)

/-- The five largest non-zero sizes of a sequence, largest first; all the non-zero sizes when
there are fewer than five. -/
def fiveLargest (sizes : List Nat) : List Nat :=
  ((sizes.filter (fun s => s != 0)).insertionSort (fun a b => a ≥ b)).take 5

/-- The declared sizes of a sequence of records, in order. -/
def recordSizes (records : List (CStr × Package)) : List Nat :=
  records.map (fun r => r.2.size)

/-- An index with three records that each declare the size 2^63 - 1. -/
def hugeWorld : World :=
  { db := [("a.installed".toList, "name=a\nsize=9223372036854775807\n".toList),
           ("b.installed".toList, "name=b\nsize=9223372036854775807\n".toList),
           ("c.installed".toList, "name=c\nsize=9223372036854775807\n".toList)],
    locked := [], disk := [] }

/-- An index in which `foo` 0.9 is installed and owns `/bin/foo`, `bar` is not installed,
and the catalog offers `foo` 1.0. -/
def staleFooWorld : World :=
  { db := [("foo.installed".toList, "name=foo\nversion=0.9\n".toList),
           ("foo.files".toList, "/bin/foo\n".toList),
           ("repo.db".toList, "name=foo\nversion=1.0\ndescription=demo\n".toList)],
    locked := [],
    disk := [("/bin/foo".toList, "old payload".toList)] }

/-- The fetcher delivers `fooNeedsBar`. -/
def needsBarEnv : Env := ⟨.cached (some fooNeedsBar), 1700000000⟩

/-- Does the line carry the key, that is, does it start with the key followed by `=`? -/
def hasKey (key : CStr) (line : CStr) : Bool := (key ++ ['=']).isPrefixOf line

/-- The value after `key=` on the last line that carries the key; empty when no line
does. -/
def lastValue (key : CStr) (lines : List CStr) : CStr :=
  match (lines.filter (hasKey key)).getLast? with
  | none => []
  | some line => line.drop (key.length + 1)

/-- The descriptor read off a list of lines: every text field is the last value given for
its key, cut to the capacity of the field; the size is what `atol` makes of the last `size`
value, as a `size_t`. -/
def decodeLines (lines : List CStr) : Package :=
  { name := (lastValue "name".toList lines).take 255,
    version := (lastValue "version".toList lines).take 63,
    arch := (lastValue "arch".toList lines).take 15,
    depends := (lastValue "depends".toList lines).take 1023,
    description := (lastValue "description".toList lines).take 511,
    size := toSizeT (atol (lastValue "size".toList lines)),
    install_time := 0 }

/-- The lines of a metadata payload: the text in front of its first NUL, cut at the
newlines. -/
def infoLines (payload : List Char) : List CStr := (cstr payload).splitOn NL

/-- The descriptor a metadata payload stands for: `decodeLines` of its lines. -/
def specDecode (payload : List Char) : Package := decodeLines (infoLines payload)

/-- The decimal value of a text: the number it writes when it is a non-empty string of
digits, 0 when it does not parse as a decimal number. -/
def decimalValue (s : CStr) : Nat :=
  if s.isEmpty || s.any (fun c => !c.isDigit) then 0 else digitsVal s 0

/-- The descriptor of a payload when every value is taken whole: each text field is the
value after `key=` on the last line of the payload that carries the key, the size is the
decimal value of the last `size` value. -/
def wholeValueDecode (payload : List Char) : Package :=
  { name := lastValue "name".toList (payload.splitOn NL),
    version := lastValue "version".toList (payload.splitOn NL),
    arch := lastValue "arch".toList (payload.splitOn NL),
    depends := lastValue "depends".toList (payload.splitOn NL),
    description := lastValue "description".toList (payload.splitOn NL),
    size := decimalValue (lastValue "size".toList (payload.splitOn NL)),
    install_time := 0 }

/-- A payload whose `name` value has 256 characters. -/
def longNameInfo : List Char := "name=".toList ++ List.replicate 256 'a' ++ [NL]

/-- A payload with a NUL byte in front of its `version` line. -/
def nulInfo : List Char := "name=foo".toList ++ [NL, NUL, NL] ++ "version=1.0".toList ++ [NL]

/-- An index with seven records of sizes 5, 9, 0, 9, 7, 3 and 1. -/
def statsDemoWorld : World :=
  { db := [("a.installed".toList, "name=a\nsize=5\n".toList),
           ("b.installed".toList, "name=b\nsize=9\n".toList),
           ("c.installed".toList, "name=c\nsize=0\n".toList),
           ("d.installed".toList, "name=d\nsize=9\n".toList),
           ("e.installed".toList, "name=e\nsize=7\n".toList),
           ("f.installed".toList, "name=f\nsize=3\n".toList),
           ("g.installed".toList, "name=g\nsize=1\n".toList),
           ("a.files".toList, "/bin/a\n".toList)],
    locked := [], disk := [] }

/-! ## Auxiliary lemmas -/

theorem strtokFrom_eq_go (d : Char) (s tok : CStr) :
    strtokFrom d s tok =
      (List.splitOnP.go (fun c => c == d) s tok).filter (fun t => !t.isEmpty) := by
  induction s generalizing tok with
  | nil =>
      cases tok with
      | nil => simp [strtokFrom, List.splitOnP.go]
      | cons a t =>
          have hne : (t.reverse ++ [a]).isEmpty = false := by cases t.reverse <;> rfl
          simp [strtokFrom, List.splitOnP.go, List.filter, hne]
  | cons c rest ih =>
      by_cases hc : c = d
      · subst hc
        cases tok with
        | nil => simp [strtokFrom, List.splitOnP.go, ih]
        | cons a t => simp [strtokFrom, List.splitOnP.go, ih, List.filter]
      · simp [strtokFrom, List.splitOnP.go, ih, hc]

theorem strtokAll_eq_splitOn (d : Char) (s : CStr) :
    strtokAll d s = (s.splitOn d).filter (fun t => !t.isEmpty) := by
  simp [strtokAll, List.splitOn, List.splitOnP, strtokFrom_eq_go]

theorem dropWhile_append_singleton (p : Char → Bool) (l : List Char) (c : Char)
    (hc : p c = false) : (l ++ [c]).dropWhile p = l.dropWhile p ++ [c] := by
  induction l with
  | nil => simp [List.dropWhile, hc]
  | cons x l ih =>
      by_cases hx : p x = true
      · simp [List.dropWhile, hx, ih]
      · simp [List.dropWhile, hx]

theorem trimDep_eq_trimSpaces (tok : CStr) : trimDep tok = trimSpaces tok := by
  unfold trimDep trimSpaces
  cases h : tok.dropWhile (fun c => c == ' ') with
  | nil => simp
  | cons c rest =>
      have hc : (fun c => c == ' ') c = false := by
        have := List.head_dropWhile_not (fun c => c == ' ') tok (by simp [h])
        simpa [h] using this
      simp only [List.reverse_cons]
      rw [dropWhile_append_singleton (fun c => c == ' ') rest.reverse c hc]
      simp

theorem countMissing_eq (w : World) (toks : List CStr) (miss : Nat) :
    countMissing w toks miss =
      miss + (toks.filter (fun t => !is_installed w (trimDep t))).length := by
  induction toks generalizing miss with
  | nil => simp [countMissing]
  | cons t ts ih =>
      by_cases h : is_installed w (trimDep t) = true
      · simp [countMissing, h, ih]
      · simp [countMissing, h, ih]; omega

theorem countMissing_eq_with (w : World) (toks : List CStr) (miss : Nat) :
    countMissing w toks miss = countMissingWith (is_installed w) toks miss := by
  induction toks generalizing miss with
  | nil => rfl
  | cons t ts ih => simp [countMissing, countMissingWith, ih]

theorem check_dependencies_eq_with (w : World) (depends : CStr) :
    check_dependencies w depends = check_dependencies_with (is_installed w) depends := by
  simp [check_dependencies, check_dependencies_with, countMissing_eq_with]

theorem countMissingWith_eq (installed : CStr → Bool) (toks : List CStr) (miss : Nat) :
    countMissingWith installed toks miss =
      miss + (toks.filter (fun t => !installed (trimDep t))).length := by
  induction toks generalizing miss with
  | nil => simp [countMissingWith]
  | cons t ts ih =>
      by_cases h : installed (trimDep t) = true
      · simp [countMissingWith, h, ih]
      · simp [countMissingWith, h, ih]; omega

theorem countMissingWith_ne_zero_iff (installed : CStr → Bool) (depends : CStr) :
    countMissingWith installed (strtokAll ',' depends) 0 ≠ 0 ↔
      ∃ d ∈ depNames depends, installed d = false := by
  rw [countMissingWith_eq, strtokAll_eq_splitOn]
  simp only [Nat.zero_add, ne_eq, List.length_eq_zero, depNames, List.mem_map,
    List.filter_eq_nil_iff, not_forall]
  constructor
  · rintro ⟨t, ht, hmiss⟩
    refine ⟨trimSpaces t, ⟨t, ht, rfl⟩, ?_⟩
    simpa [trimDep_eq_trimSpaces] using hmiss
  · rintro ⟨d, ⟨t, ht, rfl⟩, hmiss⟩
    exact ⟨t, ht, by simpa [trimDep_eq_trimSpaces] using hmiss⟩

theorem check_dependencies_with_iff_depNames (installed : CStr → Bool) (depends : CStr)
    (hlen : depends.length < 1023) :
    (check_dependencies_with installed depends = some (-1) ↔
        ∃ d ∈ depNames depends, installed d = false) ∧
    (check_dependencies_with installed depends = some 0 ↔
        ∀ d ∈ depNames depends, installed d = true) := by
  have hkey := countMissingWith_ne_zero_iff installed depends
  have hl : ¬ 1023 ≤ depends.length := by omega
  by_cases he : depends = []
  · subst he
    simp [check_dependencies_with, depNames, List.splitOn, List.splitOnP, List.splitOnP.go]
  · have he2 : depends.isEmpty = false := by
      cases depends with
      | nil => exact absurd rfl he
      | cons a t => rfl
    by_cases hm : countMissingWith installed (strtokAll ',' depends) 0 ≠ 0
    · have hex := hkey.mp hm
      have hval : check_dependencies_with installed depends = some (-1) := by
        simp [check_dependencies_with, he2, hl, hm]
      rw [hval]
      refine ⟨⟨fun _ => hex, fun _ => rfl⟩, ⟨fun h => by simp at h, fun h => ?_⟩⟩
      obtain ⟨d, hd, hmiss⟩ := hex
      have := h d hd
      simp [hmiss] at this
    · have hnex : ¬ ∃ d ∈ depNames depends, installed d = false :=
        fun h => hm (hkey.mpr h)
      have hval : check_dependencies_with installed depends = some 0 := by
        simp only [ne_eq, not_not] at hm
        simp [check_dependencies_with, he2, hl, hm]
      rw [hval]
      refine ⟨⟨fun h => by simp at h, fun h => absurd h hnex⟩,
        ⟨fun _ d hd => ?_, fun _ => rfl⟩⟩
      by_contra hcon
      exact hnex ⟨d, hd, by simpa using hcon⟩

theorem filter_map_trimSpaces (pieces : List CStr)
    (hblank : ∀ piece ∈ pieces, trimSpaces piece = [] → piece = []) :
    (pieces.map trimSpaces).filter (fun s => !s.isEmpty)
      = (pieces.filter (fun s => !s.isEmpty)).map trimSpaces := by
  induction pieces with
  | nil => rfl
  | cons p ps ih =>
      have ih2 := ih (fun q hq => hblank q (List.mem_cons_of_mem _ hq))
      have hp := hblank p (List.mem_cons_self _ _)
      cases p with
      | nil => simpa [trimSpaces] using ih2
      | cons a t =>
          have hne : trimSpaces (a :: t) ≠ [] := fun h => by simpa using hp h
          have hne2 : (trimSpaces (a :: t)).isEmpty = false := by
            cases h : trimSpaces (a :: t) with
            | nil => exact absurd h hne
            | cons b u => rfl
          simp [List.filter, hne2, ih2]

theorem spaceNames_eq_depNames (depends : CStr)
    (hblank : ∀ piece ∈ depends.splitOn ',', trimSpaces piece = [] → piece = []) :
    spaceNames depends = depNames depends :=
  filter_map_trimSpaces _ hblank

theorem fileGet_fileDel_self (k : CStr) (d : Dir) : fileGet k (fileDel k d) = none := by
  induction d with
  | nil => rfl
  | cons f fs ih =>
      obtain ⟨n, c⟩ := f
      by_cases h : n = k
      · simp [fileDel, h, ih]
      · simp [fileDel, fileGet, h, ih]

theorem fileGet_fileDel_of_none (k k2 : CStr) (d : Dir) (h : fileGet k d = none) :
    fileGet k (fileDel k2 d) = none := by
  induction d with
  | nil => rfl
  | cons f fs ih =>
      obtain ⟨n, c⟩ := f
      by_cases hn : n = k
      · simp [fileGet, hn] at h
      · have h2 : fileGet k fs = none := by simpa [fileGet, hn] using h
        by_cases hk : n = k2
        · simp [fileDel, hk, ih h2]
        · simp [fileDel, fileGet, hk, hn, ih h2]

theorem fileGet_filePut_self (k v : CStr) (d : Dir) : fileGet k (filePut k v d) = some v := by
  induction d with
  | nil => simp [filePut, fileGet]
  | cons f fs ih =>
      obtain ⟨n, c⟩ := f
      by_cases h : n = k
      · simp [filePut, fileGet, h]
      · simp [filePut, fileGet, h, ih]

theorem fileGet_filePut_isSome (k k2 v : CStr) (d : Dir) (h : (fileGet k d).isSome = true) :
    (fileGet k (filePut k2 v d)).isSome = true := by
  by_cases hk : k2 = k
  · subst hk; simp [fileGet_filePut_self]
  · induction d with
    | nil => simp [fileGet] at h
    | cons f fs ih =>
        obtain ⟨n, c⟩ := f
        by_cases hn : n = k2
        · have hnk : ¬ n = k := fun e => hk (hn ▸ e)
          simp only [fileGet, hnk, if_false] at h
          simp [filePut, fileGet, hn, hk, h]
        · by_cases hnk : n = k
          · subst hnk
            simp [filePut, fileGet, hn]
          · simp only [fileGet, hnk, if_false] at h
            simp [filePut, fileGet, hn, hnk, ih h]

theorem fileGet_filePut_ne (k k2 v : CStr) (d : Dir) (h : k2 ≠ k) :
    fileGet k (filePut k2 v d) = fileGet k d := by
  induction d with
  | nil => simp [filePut, fileGet, h]
  | cons f fs ih =>
      obtain ⟨n, c⟩ := f
      by_cases hn : n = k2
      · subst hn; simp [filePut, fileGet, h]
      · by_cases hnk : n = k
        · subst hnk
          simp [filePut, fileGet, hn]
        · simp [filePut, fileGet, hn, hnk, ih]

theorem filePut_filePut_same (k v v2 : CStr) (d : Dir) :
    filePut k v (filePut k v2 d) = filePut k v d := by
  induction d with
  | nil => simp [filePut]
  | cons f fs ih =>
      obtain ⟨n, c⟩ := f
      by_cases hn : n = k
      · simp [filePut, hn]
      · simp [filePut, hn, ih]

theorem filePut_comm (k k2 v v2 : CStr) (d : Dir) (hne : k ≠ k2)
    (hk : (fileGet k d).isSome = true) :
    filePut k2 v2 (filePut k v d) = filePut k v (filePut k2 v2 d) := by
  induction d with
  | nil => simp [fileGet] at hk
  | cons f fs ih =>
      obtain ⟨n, c⟩ := f
      by_cases hn : n = k
      · subst hn
        simp [filePut, hne]
      · have hk2 : (fileGet k fs).isSome = true := by simpa [fileGet, hn] using hk
        by_cases hn2 : n = k2
        · subst hn2
          simp [filePut, hn, Ne.symm hne]
        · simp [filePut, hn, hn2, ih hk2]

theorem filePut_of_fileGet (k v : CStr) (d : Dir) (h : fileGet k d = some v) :
    filePut k v d = d := by
  induction d with
  | nil => simp [fileGet] at h
  | cons f fs ih =>
      obtain ⟨n, c⟩ := f
      by_cases hn : n = k
      · subst hn
        have : c = v := by simpa [fileGet] using h
        simp [filePut, this]
      · have h2 : fileGet k fs = some v := by simpa [fileGet, hn] using h
        simp [filePut, hn, ih h2]

theorem putAll_keeps (ps : List (CStr × CStr)) (d : Dir) (k : CStr)
    (h : (fileGet k d).isSome = true) : (fileGet k (putAll ps d)).isSome = true := by
  induction ps generalizing d with
  | nil => simpa [putAll] using h
  | cons p ps ih =>
      obtain ⟨k2, v2⟩ := p
      exact ih _ (fileGet_filePut_isSome _ _ _ _ h)

theorem putAll_untouched (ps : List (CStr × CStr)) (d : Dir) (k : CStr)
    (h : k ∉ ps.map Prod.fst) : fileGet k (putAll ps d) = fileGet k d := by
  induction ps generalizing d with
  | nil => simp [putAll]
  | cons p ps ih =>
      obtain ⟨k2, v2⟩ := p
      have hne : k2 ≠ k := fun e => h (by simp [e])
      have hrest : k ∉ ps.map Prod.fst := fun e => h (by simp [e])
      simp [putAll, ih _ hrest, fileGet_filePut_ne _ _ _ _ hne]

theorem putAll_overwrites (ps : List (CStr × CStr)) (d : Dir) (k v : CStr)
    (hmem : k ∈ ps.map Prod.fst) (hk : (fileGet k d).isSome = true) :
    putAll ps (filePut k v d) = putAll ps d := by
  induction ps generalizing d with
  | nil => simp at hmem
  | cons p ps ih =>
      obtain ⟨k2, v2⟩ := p
      by_cases h2 : k2 = k
      · subst h2
        simp [putAll, filePut_filePut_same]
      · have hrest : k ∈ ps.map Prod.fst := by
          simp only [List.map_cons, List.mem_cons] at hmem
          rcases hmem with h | h
          · exact absurd h.symm h2
          · exact h
        simp only [putAll]
        rw [filePut_comm k k2 v v2 d (Ne.symm h2) hk]
        exact ih _ hrest (fileGet_filePut_isSome _ _ _ _ hk)

theorem putAll_idem (ps : List (CStr × CStr)) (d : Dir) :
    putAll ps (putAll ps d) = putAll ps d := by
  induction ps generalizing d with
  | nil => simp [putAll]
  | cons p ps ih =>
      obtain ⟨k, v⟩ := p
      simp only [putAll]
      have hF := ih (filePut k v d)
      have hsome : (fileGet k (putAll ps (filePut k v d))).isSome = true :=
        putAll_keeps _ _ _ (by simp [fileGet_filePut_self])
      by_cases hmem : k ∈ ps.map Prod.fst
      · rw [putAll_overwrites ps _ k v hmem hsome]; exact hF
      · have hget : fileGet k (putAll ps (filePut k v d)) = some v := by
          rw [putAll_untouched ps _ k hmem, fileGet_filePut_self]
        rw [filePut_of_fileGet k v _ hget]; exact hF

theorem extractLoop_disk (entries : Archive) (fl : CStr) (disk : Dir) :
    (extractLoop entries fl disk).2 = putAll (diskWrites entries) disk := by
  induction entries generalizing fl disk with
  | nil => simp [extractLoop, diskWrites, putAll]
  | cons e es ih =>
      by_cases hs : isSkipped e.pathname = true
      · simp [extractLoop, diskWrites, hs, ih]
      · by_cases hh : e.hdr < ARCHIVE_OK
        · simp [extractLoop, diskWrites, hs, hh, ih, writeEntry]
        · simp [extractLoop, diskWrites, hs, hh, ih, writeEntry, putAll]

theorem extractLoop_text (entries : Archive) (fl : CStr) (disk disk2 : Dir) :
    (extractLoop entries fl disk).1 = (extractLoop entries fl disk2).1 := by
  induction entries generalizing fl disk disk2 with
  | nil => simp [extractLoop]
  | cons e es ih =>
      by_cases hs : isSkipped e.pathname = true
      · simpa [extractLoop, hs] using ih _ _ _
      · simpa [extractLoop, hs] using ih _ _ _

theorem extract_package_ok (entries : Archive) (w : World) (p : CStr)
    (hf : dbFile p ".files".toList ∉ w.locked) :
    extract_package (some entries) w p =
      (0, { w with db := filePut (dbFile p ".files".toList) (extractLoop entries [] []).1 w.db,
                   disk := putAll (diskWrites entries) w.disk }) := by
  unfold extract_package
  generalize dbFile p ".files".toList = fk at hf ⊢
  simp only [hf, if_false]
  rw [extractLoop_disk, extractLoop_text entries [] w.disk []]

theorem extract_package_status (file : Option Archive) (w : World) (p : CStr)
    (h : (extract_package file w p).1 = 0) :
    ∃ entries, file = some entries ∧ dbFile p ".files".toList ∉ w.locked := by
  cases file with
  | none => simp [extract_package] at h
  | some entries =>
      refine ⟨entries, rfl, ?_⟩
      intro hl
      unfold extract_package at h
      generalize dbFile p ".files".toList = fk at hl h
      simp [hl] at h

theorem extract_package_failed (file : Option Archive) (w : World) (p : CStr)
    (h : (extract_package file w p).1 ≠ 0) : (extract_package file w p).2 = w := by
  cases file with
  | none => rfl
  | some entries =>
      by_cases hl : dbFile p ".files".toList ∈ w.locked
      · unfold extract_package
        generalize dbFile p ".files".toList = fk at hl
        simp [hl]
      · rw [extract_package_ok entries w p hl] at h
        exact absurd rfl h

theorem extract_package_again (entries : Archive) (w : World) (p : CStr)
    (hf : dbFile p ".files".toList ∉ w.locked) :
    extract_package (some entries) (extract_package (some entries) w p).2 p =
      (0, (extract_package (some entries) w p).2) := by
  rw [extract_package_ok entries w p hf]
  dsimp only
  have h2 := extract_package_ok entries
    { db := filePut (dbFile p ".files".toList) (extractLoop entries [] []).1 w.db,
      locked := w.locked, disk := putAll (diskWrites entries) w.disk } p hf
  rw [h2]
  simp only [filePut_filePut_same, putAll_idem]

theorem extract_package_locked (file : Option Archive) (w : World) (p : CStr) :
    (extract_package file w p).2.locked = w.locked := by
  cases file with
  | none => rfl
  | some entries =>
      by_cases hl : dbFile p ".files".toList ∈ w.locked
      · unfold extract_package
        generalize dbFile p ".files".toList = fk at hl
        simp [hl]
      · rw [extract_package_ok entries w p hl]

theorem extract_package_mono (file : Option Archive) (w : World) (p d : CStr)
    (h : is_installed w d = true) : is_installed (extract_package file w p).2 d = true := by
  cases file with
  | none => exact h
  | some entries =>
      by_cases hl : dbFile p ".files".toList ∈ w.locked
      · unfold extract_package
        generalize dbFile p ".files".toList = fk at hl
        simpa [hl] using h
      · rw [extract_package_ok entries w p hl]
        unfold is_installed at h ⊢
        exact fileGet_filePut_isSome _ _ _ _ h

theorem extract_package_not_installed (entries : Archive) (w : World) (p : CStr)
    (hf : dbFile p ".files".toList ∉ w.locked) (hr : dbFile p ".installed".toList ∈ w.locked)
    (hi : ¬ is_installed w p = true) :
    is_installed (extract_package (some entries) w p).2 p = false := by
  rw [extract_package_ok entries w p hf]
  unfold is_installed at hi ⊢
  have hne : dbFile p ".files".toList ≠ dbFile p ".installed".toList :=
    fun e => hf (e ▸ hr)
  dsimp only
  rw [fileGet_filePut_ne _ _ _ _ hne]
  simpa using hi

theorem mark_installed_locked (w : World) (now : Int) (p : CStr) (pkg : Option Package)
    (h : dbFile p ".installed".toList ∈ w.locked) : mark_installed w now p pkg = (-1, w) := by
  unfold mark_installed
  generalize dbFile p ".installed".toList = rk at h
  simp [h]

theorem mark_installed_installed (w : World) (now : Int) (p : CStr) (pkg : Option Package)
    (h : dbFile p ".installed".toList ∉ w.locked) :
    is_installed (mark_installed w now p pkg).2 p = true := by
  unfold mark_installed is_installed
  generalize dbFile p ".installed".toList = rk at h
  simp [h, fileGet_filePut_self]

theorem countMissing_zero_mono (w w2 : World) (toks : List CStr)
    (hmono : ∀ d, is_installed w d = true → is_installed w2 d = true)
    (h : countMissing w toks 0 = 0) : countMissing w2 toks 0 = 0 := by
  rw [countMissing_eq] at h ⊢
  simp only [Nat.zero_add, List.length_eq_zero, List.filter_eq_nil_iff] at h ⊢
  intro t ht
  have := h t ht
  simp only [Bool.not_eq_true, Bool.not_eq_false_eq_eq_true, Bool.not_eq_eq_eq_not,
    Bool.not_true, Bool.not_eq_false] at this ⊢
  exact hmono _ this

theorem depsFail_mono (w w2 : World) (pkg : Option Package)
    (hmono : ∀ d, is_installed w d = true → is_installed w2 d = true)
    (h : depsFail w pkg = some false) : depsFail w2 pkg = some false := by
  cases pkg with
  | none => rfl
  | some pk =>
      by_cases he : pk.depends.isEmpty = true
      · simp [depsFail, he]
      · by_cases hl : 1023 ≤ pk.depends.length
        · simp [depsFail, he, check_dependencies, hl] at h
        · by_cases hm : countMissing w (strtokAll ',' pk.depends) 0 = 0
          · have hm2 := countMissing_zero_mono w w2 _ hmono hm
            simp [depsFail, he, check_dependencies, hl, hm2]
          · simp [depsFail, he, check_dependencies, hl, hm] at h

theorem install_package_second_run (env : Env) (w : World) (p : CStr) (r1 : Int) (w1 : World)
    (h : install_package env w p = some (r1, w1)) :
    ∃ r2, install_package env w1 p = some (r2, w1) := by
  by_cases hi : is_installed w p = true
  · have hrun : install_package env w p = some (0, w) := by simp [install_package, hi]
    rw [hrun] at h; cases h
    exact ⟨0, hrun⟩
  · cases hd : env.download with
    | failed =>
        have hrun : install_package env w p = some (-1, w) := by simp [install_package, hi, hd]
        rw [hrun] at h; cases h
        exact ⟨-1, hrun⟩
    | cached file =>
        cases hdeps : depsFail w (read_package_info file) with
        | none => simp [install_package, hi, hd, hdeps] at h
        | some b =>
            cases b with
            | true =>
                have hrun : install_package env w p = some (-1, w) := by
                  simp [install_package, hi, hd, hdeps]
                rw [hrun] at h; cases h
                exact ⟨-1, hrun⟩
            | false =>
                by_cases hc : check_conflicts w p = 0
                · by_cases hx : (extract_package file w p).1 = 0
                  · obtain ⟨entries, rfl, hf⟩ := extract_package_status file w p hx
                    have hrun : install_package env w p = some (0,
                        (mark_installed (extract_package (some entries) w p).2 env.now p
                          (read_package_info (some entries))).2) := by
                      simp [install_package, hi, hd, hdeps, hc, hx]
                    rw [hrun] at h; cases h
                    have hlk := extract_package_locked (some entries) w p
                    by_cases hr : dbFile p ".installed".toList ∈ w.locked
                    · have hr2 : dbFile p ".installed".toList ∈
                          (extract_package (some entries) w p).2.locked := by rw [hlk]; exact hr
                      have hf2 : dbFile p ".files".toList ∉
                          (extract_package (some entries) w p).2.locked := by rw [hlk]; exact hf
                      rw [mark_installed_locked _ _ _ _ hr2]
                      have hni := extract_package_not_installed entries w p hf hr hi
                      have hdeps2 := depsFail_mono w (extract_package (some entries) w p).2
                        (read_package_info (some entries))
                        (fun d hd2 => extract_package_mono (some entries) w p d hd2) hdeps
                      have hagain := extract_package_again entries w p hf
                      by_cases hc2 : check_conflicts (extract_package (some entries) w p).2 p = 0
                      · exact ⟨0, by
                          simp [install_package, hni, hd, hdeps2, hc2, hagain,
                            mark_installed_locked _ _ _ _ hr2]⟩
                      · exact ⟨-1, by simp [install_package, hni, hd, hdeps2, hc2]⟩
                    · have hr2 : dbFile p ".installed".toList ∉
                          (extract_package (some entries) w p).2.locked := by rw [hlk]; exact hr
                      have hinst := mark_installed_installed
                        (extract_package (some entries) w p).2 env.now p
                        (read_package_info (some entries)) hr2
                      exact ⟨0, by simp [install_package, hinst]⟩
                  · have hrun : install_package env w p = some (-1, w) := by
                      simp [install_package, hi, hd, hdeps, hc, hx,
                        extract_package_failed file w p hx]
                    rw [hrun] at h; cases h
                    exact ⟨-1, hrun⟩
                · have hrun : install_package env w p = some (-1, w) := by
                    simp [install_package, hi, hd, hdeps, hc]
                  rw [hrun] at h; cases h
                  exact ⟨-1, hrun⟩

theorem topInsert_length (name : CStr) (size : Nat) (top : List TopSlot) :
    (topInsert name size top).length = top.length := by
  induction top with
  | nil => rfl
  | cons s rest ih =>
      by_cases h : size > s.sz
      · simp [topInsert, h]
      · simp [topInsert, h, ih]

theorem topInsert_of_le (name : CStr) (size : Nat) (top : List TopSlot)
    (h : ∀ t ∈ top, t.sz ≤ size) :
    (topInsert name size top).map TopSlot.sz = (size :: top.map TopSlot.sz).dropLast := by
  induction top with
  | nil => rfl
  | cons s rest ih =>
      have hs : s.sz ≤ size := h s (List.mem_cons_self _ _)
      have hrest : ∀ t ∈ rest, t.sz ≤ size := fun t ht => h t (List.mem_cons_of_mem _ ht)
      by_cases hlt : size > s.sz
      · simp [topInsert, hlt, List.dropLast_cons_of_ne_nil, List.map_dropLast]
      · have heq : s.sz = size := by omega
        simp [topInsert, hlt, ih hrest, heq, List.dropLast_cons_of_ne_nil]

theorem topInsert_sizes (name : CStr) (size : Nat) (top : List TopSlot)
    (hs : (top.map TopSlot.sz).Sorted (fun a b => a ≥ b)) :
    (topInsert name size top).map TopSlot.sz =
      ((top.map TopSlot.sz).orderedInsert (fun a b => a ≥ b) size).take top.length := by
  induction top with
  | nil => simp [topInsert]
  | cons s rest ih =>
      have hrest : (rest.map TopSlot.sz).Sorted (fun a b => a ≥ b) := by
        simp only [List.map_cons, List.sorted_cons] at hs
        exact hs.2
      by_cases hge : size ≥ s.sz
      · have hall : ∀ t ∈ s :: rest, t.sz ≤ size := by
          intro t ht
          rcases List.mem_cons.mp ht with rfl | hmem
          · exact hge
          · simp only [List.map_cons, List.sorted_cons] at hs
            have := hs.1 t.sz (List.mem_map_of_mem _ hmem)
            omega
        rw [topInsert_of_le name size (s :: rest) hall]
        simp only [List.map_cons, List.orderedInsert, hge, if_true, List.length_cons]
        rw [List.dropLast_eq_take]
        simp
      · have hlt : ¬ size > s.sz := by omega
        simp [topInsert, hlt, hge, ih hrest]

theorem take_orderedInsert_take (a : Nat) (n : Nat) (l : List Nat) :
    ((l.take n).orderedInsert (fun a b => a ≥ b) a).take n =
      (l.orderedInsert (fun a b => a ≥ b) a).take n := by
  induction l generalizing n with
  | nil => simp
  | cons b l ih =>
      cases n with
      | zero => simp
      | succ k =>
          by_cases h : a ≥ b
          · have hk : (b :: l.take k).take k = (b :: l).take k := by
              cases k with
              | zero => rfl
              | succ j => simp [List.take_take]
            simp [List.orderedInsert, h, hk]
          · simp [List.orderedInsert, h, ih k]

theorem statsLoop_snoc (records : List (CStr × Package)) (r : CStr × Package) :
    statsLoop (records ++ [r]) = statsStep (statsLoop records) r := by
  simp [statsLoop, List.foldl_append]

theorem statsLoop_top (records : List (CStr × Package)) :
    (statsLoop records).top.map TopSlot.sz =
      (((recordSizes records).reverse ++ List.replicate 5 0).insertionSort
        (fun a b => a ≥ b)).take 5 ∧ (statsLoop records).top.length = 5 := by
  induction records using List.reverseRecOn with
  | nil => exact ⟨by decide, by decide⟩
  | append_singleton rs r ih =>
      obtain ⟨ihs, ihl⟩ := ih
      rw [statsLoop_snoc]
      have hsorted : ((statsLoop rs).top.map TopSlot.sz).Sorted (fun a b => a ≥ b) := by
        rw [ihs]
        exact (List.sorted_insertionSort _ _).sublist (List.take_sublist _ _)
      refine ⟨?_, ?_⟩
      · simp only [statsStep]
        rw [topInsert_sizes _ _ _ hsorted, ihl, ihs, take_orderedInsert_take]
        simp [List.insertionSort, recordSizes]
      · simp only [statsStep, topInsert_length, ihl]

theorem sort_with_zeros (sizes : List Nat) :
    (sizes.reverse ++ List.replicate 5 0).insertionSort (fun a b => a ≥ b) =
      (sizes.filter (fun s => s != 0)).insertionSort (fun a b => a ≥ b) ++
        (sizes.filter (fun s => !(s != 0)) ++ List.replicate 5 0) := by
  have hz : ∀ z ∈ sizes.filter (fun s => !(s != 0)) ++ List.replicate 5 0, z = 0 := by
    intro z hz
    rcases List.mem_append.mp hz with h | h
    · simpa using (List.mem_filter.mp h).2
    · exact (List.mem_replicate.mp h).2
  apply List.eq_of_perm_of_sorted (r := fun a b : Nat => a ≥ b)
  · have h1 : (sizes.reverse ++ List.replicate 5 0).Perm
        ((sizes.filter (fun s => s != 0) ++ sizes.filter (fun s => !(s != 0))) ++
          List.replicate 5 0) :=
      List.Perm.append ((List.reverse_perm _).trans (List.filter_append_perm _ _).symm)
        (List.Perm.refl _)
    have h2 : ((sizes.filter (fun s => s != 0) ++ sizes.filter (fun s => !(s != 0))) ++
          List.replicate 5 0).Perm
        ((sizes.filter (fun s => s != 0)).insertionSort (fun a b => a ≥ b) ++
          (sizes.filter (fun s => !(s != 0)) ++ List.replicate 5 0)) := by
      rw [List.append_assoc]
      exact List.Perm.append (List.perm_insertionSort _ _).symm (List.Perm.refl _)
    exact (List.perm_insertionSort _ _).trans (h1.trans h2)
  · exact List.sorted_insertionSort _ _
  · unfold List.Sorted
    rw [List.pairwise_append]
    refine ⟨List.sorted_insertionSort _ _, ?_, ?_⟩
    · exact List.Pairwise.imp_of_mem (fun _ hb _ => by rw [hz _ hb]; exact Nat.zero_le _)
        (List.pairwise_of_forall (R := fun _ _ : Nat => True) (fun _ _ => trivial))
    · intro a _ b hb
      rw [hz b hb]; exact Nat.zero_le _

theorem filter_take_append (front zeros : List Nat) (n : Nat)
    (hf : ∀ a ∈ front, a ≠ 0) (hz : ∀ z ∈ zeros, z = 0) :
    ((front ++ zeros).take n).filter (fun s => s != 0) = front.take n ∧
    ((front ++ zeros).take n).takeWhile (fun s => s != 0) = front.take n := by
  rw [List.take_append_eq_append_take]
  have h1 : (front.take n).filter (fun s => s != 0) = front.take n := by
    rw [List.filter_eq_self]
    intro a ha
    simpa using hf a (List.mem_of_mem_take ha)
  have h2 : ∀ z ∈ zeros.take (n - front.length), z = 0 :=
    fun z hzm => hz z (List.mem_of_mem_take hzm)
  have h3 : (zeros.take (n - front.length)).filter (fun s => s != 0) = [] := by
    rw [List.filter_eq_nil_iff]
    intro z hzm
    simp [h2 z hzm]
  refine ⟨by rw [List.filter_append, h1, h3, List.append_nil], ?_⟩
  have h4 : ∀ a ∈ front.take n, (fun s : Nat => s != 0) a = true := by
    intro a ha
    simpa using hf a (List.mem_of_mem_take ha)
  rw [List.takeWhile_append_of_pos h4]
  cases hzs : zeros.take (n - front.length) with
  | nil => simp
  | cons z zs =>
      have : z = 0 := h2 z (by rw [hzs]; exact List.mem_cons_self _ _)
      simp [List.takeWhile, this]

theorem statsLoop_pkgs_total (records : List (CStr × Package)) :
    (statsLoop records).pkgs = records.length ∧
    (statsLoop records).total = (recordSizes records).sum % 2 ^ 64 := by
  induction records using List.reverseRecOn with
  | nil => exact ⟨rfl, rfl⟩
  | append_singleton rs r ih =>
      obtain ⟨ihp, iht⟩ := ih
      rw [statsLoop_snoc]
      refine ⟨by simp [statsStep, ihp], ?_⟩
      simp only [statsStep, iht, recordSizes, List.map_append, List.sum_append, List.map_cons,
        List.map_nil, List.sum_cons, List.sum_nil, Nat.add_zero]
      omega

theorem lastValue_snoc (key : CStr) (lines : List CStr) (x : CStr) :
    lastValue key (lines ++ [x]) =
      if hasKey key x then x.drop (key.length + 1) else lastValue key lines := by
  unfold lastValue
  by_cases h : hasKey key x = true
  · simp [List.filter_append, h, List.filter]
  · simp [List.filter_append, h, List.filter]

theorem hasKey_name (x : CStr) : "name=".toList.isPrefixOf x = hasKey "name".toList x := rfl
theorem hasKey_version (x : CStr) :
    "version=".toList.isPrefixOf x = hasKey "version".toList x := rfl
theorem hasKey_arch (x : CStr) : "arch=".toList.isPrefixOf x = hasKey "arch".toList x := rfl
theorem hasKey_description (x : CStr) :
    "description=".toList.isPrefixOf x = hasKey "description".toList x := rfl
theorem hasKey_depends (x : CStr) :
    "depends=".toList.isPrefixOf x = hasKey "depends".toList x := rfl
theorem hasKey_size (x : CStr) : "size=".toList.isPrefixOf x = hasKey "size".toList x := rfl

theorem hasKey_exclusive (k1 k2 : CStr) (x : CStr) (c1 c2 c3 d1 d2 d3 : Char) (r1 r2 : CStr)
    (e1 : k1 = c1 :: c2 :: c3 :: r1) (e2 : k2 = d1 :: d2 :: d3 :: r2)
    (hne : ¬ (c1 = d1 ∧ c2 = d2 ∧ c3 = d3))
    (h1 : hasKey k1 x = true) : hasKey k2 x = false := by
  subst e1 e2
  unfold hasKey at *
  match x with
  | [] => simp [List.isPrefixOf] at h1
  | [a] => simp [List.isPrefixOf] at h1
  | [a, b] => simp [List.isPrefixOf] at h1
  | a :: b :: c :: rest =>
      simp only [List.cons_append, List.isPrefixOf, Bool.and_eq_true, beq_iff_eq] at h1
      obtain ⟨ha, hb, hc, _⟩ := h1
      subst ha hb hc
      by_contra hcon
      simp only [Bool.not_eq_false, List.cons_append, List.isPrefixOf, Bool.and_eq_true,
        beq_iff_eq] at hcon
      exact hne ⟨hcon.1.symm, hcon.2.1.symm, hcon.2.2.1.symm⟩

theorem hasKey_facts (x : CStr) :
    (hasKey "name".toList x = true →
      hasKey "version".toList x = false ∧ hasKey "arch".toList x = false ∧
      hasKey "description".toList x = false ∧ hasKey "depends".toList x = false ∧
      hasKey "size".toList x = false) ∧
    (hasKey "version".toList x = true →
      hasKey "arch".toList x = false ∧
      hasKey "description".toList x = false ∧ hasKey "depends".toList x = false ∧
      hasKey "size".toList x = false) ∧
    (hasKey "arch".toList x = true →
      hasKey "description".toList x = false ∧ hasKey "depends".toList x = false ∧
      hasKey "size".toList x = false) ∧
    (hasKey "description".toList x = true →
      hasKey "depends".toList x = false ∧ hasKey "size".toList x = false) ∧
    (hasKey "depends".toList x = true → hasKey "size".toList x = false) := by
  refine ⟨fun h => ⟨?_, ?_, ?_, ?_, ?_⟩, fun h => ⟨?_, ?_, ?_, ?_⟩, fun h => ⟨?_, ?_, ?_⟩,
    fun h => ⟨?_, ?_⟩, fun h => ?_⟩ <;>
  exact hasKey_exclusive _ _ x _ _ _ _ _ _ _ _ rfl rfl (by decide) h

theorem parseInfoLine_decodeLines (lines : List CStr) (x : CStr) :
    parseInfoLine (decodeLines lines) x = decodeLines (lines ++ [x]) := by
  obtain ⟨f1, f2, f3, f4, f5⟩ := hasKey_facts x
  unfold parseInfoLine
  rw [hasKey_name, hasKey_version, hasKey_arch, hasKey_description, hasKey_depends,
    hasKey_size]
  simp only [decodeLines, lastValue_snoc]
  by_cases h1 : hasKey "name".toList x = true
  · obtain ⟨a, b, c, d, e⟩ := f1 h1
    simp only [h1, a, b, c, d, e, if_true, if_false, Bool.false_eq_true]
    rfl
  · by_cases h2 : hasKey "version".toList x = true
    · obtain ⟨b, c, d, e⟩ := f2 h2
      simp only [h1, h2, b, c, d, e, if_true, if_false, Bool.false_eq_true]
      rfl
    · by_cases h3 : hasKey "arch".toList x = true
      · obtain ⟨c, d, e⟩ := f3 h3
        simp only [h1, h2, h3, c, d, e, if_true, if_false, Bool.false_eq_true]
        rfl
      · by_cases h4 : hasKey "description".toList x = true
        · obtain ⟨d, e⟩ := f4 h4
          simp only [h1, h2, h3, h4, d, e, if_true, if_false, Bool.false_eq_true]
          rfl
        · by_cases h5 : hasKey "depends".toList x = true
          · have e := f5 h5
            simp only [h1, h2, h3, h4, h5, e, if_true, if_false, Bool.false_eq_true]
            rfl
          · by_cases h6 : hasKey "size".toList x = true
            · simp only [h1, h2, h3, h4, h5, h6, if_true, if_false, Bool.false_eq_true]
              rfl
            · simp only [h1, h2, h3, h4, h5, h6, if_true, if_false, Bool.false_eq_true]

theorem isspace_of_isDigit (c : Char) (h : c.isDigit = true) : isspace c = false := by
  by_contra hcon
  simp only [isspace, Bool.not_eq_false, Bool.or_eq_true, decide_eq_true_eq] at hcon
  rcases hcon with ((((hc | hc) | hc) | hc) | hc) | hc <;> subst hc <;> revert h <;> decide

theorem atol_of_digits (c : Char) (cs : CStr) (h : c.isDigit = true) :
    atol (c :: cs) = min LONG_MAX (digitsVal (c :: cs) 0 : Int) := by
  have hsp := isspace_of_isDigit c h
  have hm : c ≠ '-' := by intro e; subst e; revert h; decide
  have hp : c ≠ '+' := by intro e; subst e; revert h; decide
  unfold atol
  have hd : (c :: cs).dropWhile isspace = c :: cs := by simp [List.dropWhile, hsp]
  rw [hd]
  split
  · next ds heq => exact absurd (List.cons.inj heq).1 hm
  · next ds heq => exact absurd (List.cons.inj heq).1 hp
  · rfl

theorem toSizeT_atol_of_digits (s : CStr) (hne : s.isEmpty = false)
    (hd : s.any (fun c => !c.isDigit) = false) (hle : digitsVal s 0 < 2 ^ 63) :
    toSizeT (atol s) = decimalValue s := by
  cases s with
  | nil => simp at hne
  | cons c cs =>
      have hc : c.isDigit = true := by
        simp only [List.any_cons, Bool.or_eq_false_iff, Bool.not_eq_false'] at hd
        exact hd.1
      rw [atol_of_digits c cs hc]
      simp only [decimalValue, hne, hd, Bool.or_self, Bool.false_eq_true, if_false]
      have : min LONG_MAX (digitsVal (c :: cs) 0 : Int) = (digitsVal (c :: cs) 0 : Int) := by
        unfold LONG_MAX; omega
      rw [this]
      unfold toSizeT
      omega

theorem foldl_parseInfoLine (lines : List CStr) :
    lines.foldl parseInfoLine Package.zero = decodeLines lines := by
  induction lines using List.reverseRecOn with
  | nil => decide
  | append_singleton ls x ih =>
      rw [List.foldl_append, List.foldl_cons, List.foldl_nil, ih, parseInfoLine_decodeLines]

theorem hasKey_ne_nil (key line : CStr) (h : hasKey key line = true) :
    line.isEmpty = false := by
  cases line with
  | nil => cases key <;> simp [hasKey, List.isPrefixOf] at h
  | cons c cs => rfl

theorem lastValue_filter_nonempty (key : CStr) (lines : List CStr) :
    lastValue key (lines.filter (fun t => !t.isEmpty)) = lastValue key lines := by
  unfold lastValue
  rw [List.filter_filter]
  have : (fun a => hasKey key a && !a.isEmpty) = hasKey key := by
    funext a
    cases h : hasKey key a with
    | false => rfl
    | true => simp [hasKey_ne_nil key a h]
  rw [this]

theorem decodeLines_filter_nonempty (lines : List CStr) :
    decodeLines (lines.filter (fun t => !t.isEmpty)) = decodeLines lines := by
  simp only [decodeLines, lastValue_filter_nonempty]

theorem findPkgInfo_none (entries : Archive)
    (h : ∀ e ∈ entries, isPkgInfo e.pathname = false) : findPkgInfo entries = none := by
  induction entries with
  | nil => rfl
  | cons e es ih =>
      have he := h e (List.mem_cons_self _ _)
      simp [findPkgInfo, he, ih (fun x hx => h x (List.mem_cons_of_mem _ hx))]

theorem findPkgInfo_first (front : Archive) (e : Entry) (back : Archive)
    (h : ∀ x ∈ front, isPkgInfo x.pathname = false) (he : isPkgInfo e.pathname = true) :
    findPkgInfo (front ++ e :: back) = some (parsePkgInfo e.payload) := by
  induction front with
  | nil => simp [findPkgInfo, he]
  | cons x xs ih =>
      have hx := h x (List.mem_cons_self _ _)
      simp [findPkgInfo, hx, ih (fun y hy => h y (List.mem_cons_of_mem _ hy))]

theorem lastValue_skip (key : CStr) (front back : List CStr) (x : CStr)
    (h : hasKey key x = false) :
    lastValue key (front ++ x :: back) = lastValue key (front ++ back) := by
  unfold lastValue
  simp [List.filter_append, List.filter_cons, h]

/-! ## The claims -/

/-- C1 (the code breaks it). The ownership invariant is not preserved. A package that has
no manifest yet always passes `check_conflicts`, whatever its archive holds, because the
check runs before `extract_package` writes the manifest. `barWorld` and `updWorld` satisfy the
invariant; `install_package`, `ghost_install` and `update_package` all return success there
and leave `/bin/x` in the manifests of both `foo` and `bar`. -/
theorem install_records_second_owner :
    (∀ (w : World) (p : CStr),
      fileGet (dbFile p ".files".toList) w.db = none → check_conflicts w p = 0) ∧
    ownershipInvariant barWorld ∧ ownershipInvariant updWorld ∧
    (∃ w, install_package fooEnv barWorld "foo".toList = some (0, w) ∧
      fileGet "foo.files".toList w.db = some "/bin/x\n".toList ∧
      fileGet "bar.files".toList w.db = some "/bin/x\n".toList ∧
      fileGet "/bin/x".toList w.disk = some "x of foo".toList ∧ ¬ ownershipInvariant w) ∧
    (∃ w, ghost_install fooEnv barWorld "foo".toList = some (0, w) ∧ ¬ ownershipInvariant w) ∧
    (∃ w, update_package fooEnv updWorld "foo".toList = (0, w) ∧ ¬ ownershipInvariant w) := by
  refine ⟨fun w p h => ?_, by decide, by decide,
    ⟨_, rfl, by decide, by decide, by decide, by decide⟩, ⟨_, rfl, by decide⟩,
    ⟨_, rfl, by decide⟩⟩
  unfold check_conflicts
  rw [h]

set_option maxRecDepth 1000000 in
/-- C2 as stated fails. With `bar` installed, the list made of `bar` and a tab names `bar`
alone once the white space is trimmed, and so does the list `bar, ` with a space after the
comma; every name has an Installed Package Record, yet `check_dependencies` fails on both:
it removes the space character only and looks up `bar` followed by the tab, and it looks up
the piece after the comma as the empty name. On a list of 1023 characters the local copy has
no terminator and the result is not determined, although its one name has no Record. -/
theorem check_dependencies_trims_spaces_only :
    is_installed barWorld "bar".toList = true ∧
    (whitespaceNames "bar\t".toList = ["bar".toList] ∧
      check_dependencies barWorld "bar\t".toList = some (-1) ∧
      ¬ (check_dependencies barWorld "bar\t".toList = some (-1) ↔
          ∃ d ∈ whitespaceNames "bar\t".toList, is_installed barWorld d = false)) ∧
    (whitespaceNames "bar, ".toList = ["bar".toList] ∧
      check_dependencies barWorld "bar, ".toList = some (-1) ∧
      ¬ (check_dependencies barWorld "bar, ".toList = some (-1) ↔
          ∃ d ∈ whitespaceNames "bar, ".toList, is_installed barWorld d = false)) ∧
    (whitespaceNames (List.replicate 1023 'b') = [List.replicate 1023 'b'] ∧
      is_installed barWorld (List.replicate 1023 'b') = false ∧
      check_dependencies barWorld (List.replicate 1023 'b') = none) := by
  refine ⟨by decide, ⟨by decide, by decide, by decide⟩, ⟨by decide, by decide, by decide⟩,
    ⟨by decide, by decide, by decide⟩⟩

/-- C2, amended. For a dependency list shorter than 1023 characters in which no piece between
two commas consists of space characters only, `check_dependencies` returns -1 exactly when
some name of the list has no Installed Package Record, and 0 exactly when every name has
one; the names are the pieces between the commas with the space characters at their two
ends removed, a tab or other white space staying part of the name. This holds whatever the
presence predicate `is_installed` answers, here the function `installed`, and so for every
state of the index. -/
theorem check_dependencies_fails_iff_missing (installed : CStr → Bool) (depends : CStr)
    (hlen : depends.length < 1023)
    (hblank : ∀ piece ∈ depends.splitOn ',', trimSpaces piece = [] → piece = []) :
    (check_dependencies_with installed depends = some (-1) ↔
        ∃ d ∈ spaceNames depends, installed d = false) ∧
    (check_dependencies_with installed depends = some 0 ↔
        ∀ d ∈ spaceNames depends, installed d = true) ∧
    ∀ w : World, check_dependencies w depends = check_dependencies_with (is_installed w) depends
    := by
  rw [spaceNames_eq_depNames depends hblank]
  exact ⟨(check_dependencies_with_iff_depNames installed depends hlen).1,
    (check_dependencies_with_iff_depNames installed depends hlen).2,
    fun w => check_dependencies_eq_with w depends⟩

/-- Instance of C2 amended: with only `bar` installed the list `bar, baz` fails, and the name
found missing is `baz`. -/
theorem check_dependencies_fails_iff_missing_witness :
    "bar, baz".toList.length < 1023 ∧
    spaceNames "bar, baz".toList = ["bar".toList, "baz".toList] ∧
    is_installed barWorld "baz".toList = false ∧
    check_dependencies barWorld "bar, baz".toList = some (-1) ∧
    (check_dependencies_with (is_installed barWorld) "bar, baz".toList = some (-1) ↔
        ∃ d ∈ spaceNames "bar, baz".toList, is_installed barWorld d = false) :=
  ⟨by decide, by decide, by decide, by decide,
    (check_dependencies_fails_iff_missing (is_installed barWorld) "bar, baz".toList
      (by decide) (by decide)).1⟩

/-- C4 (the code breaks it). The conflict detector misses shared paths. In `sharedWorld` the
manifest of `foo` shares `/bin/x` with the manifest of `bar`, yet `check_conflicts` answers 0:
the own manifest is read to its end against `aaa.files`, the first other manifest, and is not
rewound for `bar.files`. With `bar.files` listed first the answer is -1. In `substringWorld`
the manifest of `foobar` is never compared, because its file name contains `foo`. -/
theorem check_conflicts_misses_shared_path :
    (check_conflicts sharedWorld "foo".toList = 0 ∧
      "/bin/x".toList ∈ manifestOf sharedWorld "foo".toList ∧
      "/bin/x".toList ∈ manifestOf sharedWorld "bar".toList) ∧
    check_conflicts sharedWorldBarFirst "foo".toList = -1 ∧
    (check_conflicts substringWorld "foo".toList = 0 ∧
      "/bin/x".toList ∈ manifestOf substringWorld "foo".toList ∧
      "/bin/x".toList ∈ manifestOf substringWorld "foobar".toList) := by
  decide

/-- C5. Install idempotence: on a package that has an Installed Package Record,
`install_package` returns 0 and changes neither the index nor the disk; and from any state,
whatever a first run of `install_package` returns, a second run for the same package with
the same fetched archive leaves the state of the first run as it is, so installing twice
gives the same index as installing once. -/
theorem install_installed_is_noop (env : Env) (w : World) (package_name : CStr) :
    (is_installed w package_name = true →
      install_package env w package_name = some (0, w)) ∧
    (∀ r1 w1, install_package env w package_name = some (r1, w1) →
      ∃ r2, install_package env w1 package_name = some (r2, w1)) := by
  refine ⟨fun h => by simp [install_package, h], fun r1 w1 h => ?_⟩
  exact install_package_second_run env w package_name r1 w1 h

/-- Instance of C5: `bar` is installed in `barWorld`, and installing it changes nothing. -/
theorem install_installed_is_noop_witness :
    is_installed barWorld "bar".toList = true ∧
    install_package fooEnv barWorld "bar".toList = some (0, barWorld) :=
  ⟨by decide, (install_installed_is_noop fooEnv barWorld "bar".toList).1 (by decide)⟩

/-- C6 as stated fails. A ghost install leaves `ghostWorld`, a manifest for `foo` without a
record; there `remove_package` returns success and the manifest is still in the index. In
`stuckRecordWorld` and `stuckManifestWorld`, where `foo` is installed and the `unlink` of its
record file, or of its manifest file, is refused, `remove_package` returns success as well
and the record, or the manifest, is still in the index. -/
theorem remove_keeps_ghost_manifest :
    ghost_install ⟨Download.cached (some plainArchive), 0⟩ emptyWorld "foo".toList
      = some (0, ghostWorld) ∧
    (remove_package ghostWorld "foo".toList).1 = 0 ∧
    ¬ (fileGet (dbFile "foo".toList ".files".toList) (remove_package ghostWorld "foo".toList).2.db
        = none ∧ is_installed (remove_package ghostWorld "foo".toList).2 "foo".toList = false) ∧
    (is_installed stuckRecordWorld "foo".toList = true ∧
      (remove_package stuckRecordWorld "foo".toList).1 = 0 ∧
      is_installed (remove_package stuckRecordWorld "foo".toList).2 "foo".toList = true) ∧
    (is_installed stuckManifestWorld "foo".toList = true ∧
      (remove_package stuckManifestWorld "foo".toList).1 = 0 ∧
      fileGet (dbFile "foo".toList ".files".toList)
        (remove_package stuckManifestWorld "foo".toList).2.db ≠ none) := by
  decide

/-- C6, amended. For a package that has an Installed Package Record and whose manifest file
and record file can be unlinked, whenever `remove_package` returns success the resulting
index holds neither its File Manifest nor its Record, whichever of the listed files could be
deleted. -/
theorem remove_package_complete (w : World) (package_name : CStr)
    (hrec : is_installed w package_name = true)
    (hf : dbFile package_name ".files".toList ∉ w.locked)
    (hr : dbFile package_name ".installed".toList ∉ w.locked) :
    (remove_package w package_name).1 = 0 →
      fileGet (dbFile package_name ".files".toList) (remove_package w package_name).2.db
        = none ∧
      is_installed (remove_package w package_name).2 package_name = false := by
  intro _
  revert hrec
  unfold remove_package is_installed
  generalize dbFile package_name ".files".toList = fk at hf ⊢
  generalize dbFile package_name ".installed".toList = rk at hr ⊢
  cases hrec : fileGet rk w.db with
  | none => simp
  | some r =>
      cases hm : fileGet fk w.db with
      | none => simp [unlinkDb, hr, fileGet_fileDel_self, fileGet_fileDel_of_none, hm]
      | some f => simp [unlinkDb, hr, hf, fileGet_fileDel_self, fileGet_fileDel_of_none]

/-- Instance of C6 amended: `foo` is installed, one of its two listed files is missing on
the disk, the removal returns success and leaves the empty index. -/
theorem remove_package_complete_witness :
    is_installed fooInstalledWorld "foo".toList = true ∧
    (remove_package fooInstalledWorld "foo".toList).1 = 0 ∧
    (remove_package fooInstalledWorld "foo".toList).2 = emptyWorld ∧
    fileGet (dbFile "foo".toList ".files".toList)
      (remove_package fooInstalledWorld "foo".toList).2.db = none ∧
    is_installed (remove_package fooInstalledWorld "foo".toList).2 "foo".toList = false :=
  ⟨by decide, by decide, by decide,
    remove_package_complete fooInstalledWorld "foo".toList (by decide) (by decide) (by decide)
      (by decide)⟩

set_option maxRecDepth 1000000 in
/-- C7 (the code breaks it). The record round trip loses characters of `depends`. The
metadata reader yields a descriptor whose `depends` has 1016 characters, within the capacity
of 1023; `mark_installed` writes it in full, and `read_installed_package`, whose line buffer
holds 1023 characters of the line `depends=...`, returns 1015 of them. -/
theorem record_round_trip_truncates_depends :
    (parsePkgInfo longDependsInfo).depends = List.replicate 1016 'a' ∧
    (parsePkgInfo longDependsInfo).name = "foo".toList ∧
    (mark_installed emptyWorld 0 "foo".toList (some (parsePkgInfo longDependsInfo))).1 = 0 ∧
    (read_installed_package
        (mark_installed emptyWorld 0 "foo".toList (some (parsePkgInfo longDependsInfo))).2
        "foo".toList).map Package.depends = some (List.replicate 1015 'a') := by
  refine ⟨by decide, by decide, by decide, by decide⟩

/-- C9 (the code breaks it). Extraction failures are not signalled. A cache file that does
not open gives -1, but once the archive and the manifest file are open `extract_package`
returns 0 whatever the disk writer answers. On `failingArchive`, where `copy_data` returns
`ARCHIVE_FAILED` for the first entry and `archive_write_header` fails for the second, it goes
on to the third entry and lists all three paths in the manifest, although `/bin/a` is empty
on the disk and `/bin/b` is absent. -/
theorem extract_ignores_write_failures :
    extract_package none emptyWorld "foo".toList = (-1, emptyWorld) ∧
    (∀ (entries : Archive) (w : World) (p : CStr),
      dbFile p ".files".toList ∉ w.locked → (extract_package (some entries) w p).1 = 0) ∧
    copy_data [⟨ARCHIVE_OK, "aaaa".toList, ARCHIVE_FAILED⟩] = ARCHIVE_FAILED ∧
    (extract_package (some failingArchive) emptyWorld "foo".toList).1 = 0 ∧
    fileGet (dbFile "foo".toList ".files".toList)
      (extract_package (some failingArchive) emptyWorld "foo".toList).2.db
      = some "/bin/a\n/bin/b\n/bin/c\n".toList ∧
    (extract_package (some failingArchive) emptyWorld "foo".toList).2.disk
      = [("/bin/a".toList, []), ("/bin/c".toList, "cccc".toList)] := by
  refine ⟨by decide, fun entries w p h => ?_, by decide, by decide, by decide, by decide⟩
  rw [extract_package_ok entries w p h]

/-- C10 (the code breaks it). A failing Recording step is not surfaced. In
`lockedRecordWorld` the record file of `foo` cannot be opened for writing: `mark_installed`
returns -1, `install_package` returns 0, and afterwards `foo` has no Installed Package Record
while its file is on the disk. -/
theorem install_hides_record_failure :
    is_installed lockedRecordWorld "foo".toList = false ∧
    (mark_installed
      (extract_package (some plainArchive) lockedRecordWorld "foo".toList).2 0 "foo".toList
      (read_package_info (some plainArchive))).1 = -1 ∧
    ∃ w, install_package ⟨Download.cached (some plainArchive), 0⟩ lockedRecordWorld "foo".toList
        = some (0, w) ∧
      is_installed w "foo".toList = false ∧
      fileGet "/bin/foo".toList w.disk = some "payload".toList := by
  refine ⟨by decide, by decide, ⟨_, rfl, by decide, by decide⟩⟩

/-- C11 (the code breaks it). The update pipeline has no dependency step. In `staleFooWorld`
`foo` 0.9 is installed, the catalog offers 1.0 and the fetched archive declares the
dependency `bar`, which is not installed: `check_dependencies` would answer -1 and
`install_package` refuses the same archive on the empty index, but `update_package` returns
0, overwrites `/bin/foo` and replaces the record by the one of version 1.0. -/
theorem update_skips_dependency_check :
    (read_installed_package staleFooWorld "foo".toList).map Package.version
      = some "0.9".toList ∧
    (read_package_info (some fooNeedsBar)).map Package.depends = some "bar".toList ∧
    is_installed staleFooWorld "bar".toList = false ∧
    check_dependencies staleFooWorld "bar".toList = some (-1) ∧
    install_package needsBarEnv emptyWorld "foo".toList = some (-1, emptyWorld) ∧
    ∃ w, update_package needsBarEnv staleFooWorld "foo".toList = (0, w) ∧
      (read_installed_package w "foo".toList).map Package.version = some "1.0".toList ∧
      (read_installed_package w "foo".toList).map Package.depends = some "bar".toList ∧
      fileGet "/bin/foo".toList w.disk = some "payload".toList ∧
      is_installed w "bar".toList = false := by
  refine ⟨by decide, by decide, by decide, by decide, by decide,
    ⟨_, rfl, by decide, by decide, by decide, by decide⟩⟩

set_option maxRecDepth 100000 in
/-- C12 as stated fails. A `name` value of 256 characters is returned with 255; the size
line `size=12abc` gives 12, not 0, and `size=-1` gives 2^64 - 1; a `version` line behind a
NUL byte of the payload is not read. -/
theorem read_package_info_cuts_values :
    (parsePkgInfo longNameInfo).name = List.replicate 255 'a' ∧
    (wholeValueDecode longNameInfo).name = List.replicate 256 'a' ∧
    parsePkgInfo longNameInfo ≠ wholeValueDecode longNameInfo ∧
    (read_package_info
      (some [⟨"PKGINFO".toList, true, [okBlock "size=12abc\n"], ARCHIVE_OK⟩])).map Package.size
      = some 12 ∧
    (wholeValueDecode "size=12abc\n".toList).size = 0 ∧
    (parsePkgInfo "size=-1\n".toList).size = 2 ^ 64 - 1 ∧
    (parsePkgInfo nulInfo).version = [] ∧
    (wholeValueDecode nulInfo).version = "1.0".toList := by
  refine ⟨by decide, by decide, by decide, by decide, by decide, by decide, by decide,
    by decide⟩

/-- C12, amended. The descriptor decoded from a payload is `specDecode` of it: over the
lines of the text in front of the first NUL, each text field is the value after `key=` on
the last line carrying the key, cut to the capacity of the field, and empty when there is no
such line; the size is what `atol` makes of the last `size` value, converted to `size_t`,
which for a plain decimal number below 2^63 is its value; a line without any of the six keys
changes nothing. `read_package_info` returns this for the first entry called `PKGINFO` or
`./PKGINFO`, and "not found" when the archive has no such entry or does not open. -/
theorem read_package_info_decodes :
    (∀ payload : List Char, parsePkgInfo payload = specDecode payload) ∧
    (∀ (front : Archive) (e : Entry) (back : Archive),
      (∀ x ∈ front, isPkgInfo x.pathname = false) → isPkgInfo e.pathname = true →
      read_package_info (some (front ++ e :: back)) = some (specDecode e.payload)) ∧
    (∀ entries : Archive, (∀ e ∈ entries, isPkgInfo e.pathname = false) →
      read_package_info (some entries) = none) ∧
    read_package_info none = none ∧
    (∀ (front back : List CStr) (x : CStr),
      (∀ key ∈ ["name".toList, "version".toList, "arch".toList, "description".toList,
        "depends".toList, "size".toList], hasKey key x = false) →
      decodeLines (front ++ x :: back) = decodeLines (front ++ back)) ∧
    (∀ s : CStr, s.isEmpty = false → s.any (fun c => !c.isDigit) = false →
      digitsVal s 0 < 2 ^ 63 → toSizeT (atol s) = decimalValue s) := by
  have hdec : ∀ payload : List Char, parsePkgInfo payload = specDecode payload := by
    intro payload
    unfold parsePkgInfo specDecode infoLines
    rw [foldl_parseInfoLine, strtokAll_eq_splitOn, decodeLines_filter_nonempty]
  refine ⟨hdec, ?_, ?_, rfl, ?_, toSizeT_atol_of_digits⟩
  · intro front e back hf he
    rw [← hdec]
    exact findPkgInfo_first front e back hf he
  · intro entries h
    exact findPkgInfo_none entries h
  · intro front back x h
    have hk : ∀ key ∈ ["name".toList, "version".toList, "arch".toList, "description".toList,
        "depends".toList, "size".toList],
        lastValue key (front ++ x :: back) = lastValue key (front ++ back) :=
      fun key hkey => lastValue_skip key front back x (h key hkey)
    unfold decodeLines
    rw [hk _ (by decide), hk "version".toList (by decide), hk "arch".toList (by decide),
      hk "description".toList (by decide), hk "depends".toList (by decide),
      hk "size".toList (by decide)]

/-- Instance of C12 amended: the descriptor of `fooNeedsBar`, and a payload in which the
second `name` line wins and the line `note=x` is ignored. -/
theorem read_package_info_decodes_witness :
    read_package_info (some fooNeedsBar)
      = some (specDecode "name=foo\nversion=1.0\ndepends=bar\n".toList) ∧
    specDecode "name=foo\nname=baz\nversion=1.0\nsize=42\nnote=x\n".toList
      = ⟨"baz".toList, "1.0".toList, [], [], [], 42, 0⟩ :=
  ⟨read_package_info_decodes.2.1 []
      ⟨"PKGINFO".toList, true, [okBlock "name=foo\nversion=1.0\ndepends=bar\n"], ARCHIVE_OK⟩
      [⟨"bin/foo".toList, true, [okBlock "payload"], ARCHIVE_OK⟩] (by decide) (by decide),
    by decide⟩

/-- C13 as stated fails. Three records that each declare the size 2^63 - 1 have the sum
27670116110564327421; the `size_t` variable `total` ends at 9223372036854775805. -/
theorem show_stats_total_wraps :
    recordSizes (statsRecords hugeWorld)
      = [9223372036854775807, 9223372036854775807, 9223372036854775807] ∧
    (recordSizes (statsRecords hugeWorld)).sum = 27670116110564327421 ∧
    (show_stats hugeWorld).map Stats.total = some 9223372036854775805 ∧
    (show_stats hugeWorld).map Stats.total
      ≠ some (recordSizes (statsRecords hugeWorld)).sum := by
  decide

/-- C13, amended. For every sequence of records processed by the loop of `show_stats`:
`pkgs` is the length of the sequence (and `show_stats` reports it while it fits an `int`);
`total` is the sum of the declared sizes modulo 2^64, hence the sum itself whenever that is
below 2^64; the array `top` has five slots in non-increasing order of size; its non-zero
sizes, which are also the sizes of the lines printed, are the five largest non-zero declared
sizes of the sequence, largest first, all of them when fewer than five are non-zero. -/
theorem show_stats_summary (records : List (CStr × Package)) :
    (statsLoop records).pkgs = records.length ∧
    (statsLoop records).total = (recordSizes records).sum % 2 ^ 64 ∧
    ((recordSizes records).sum < 2 ^ 64 →
      (statsLoop records).total = (recordSizes records).sum) ∧
    (statsLoop records).top.length = 5 ∧
    ((statsLoop records).top.map TopSlot.sz).Sorted (fun a b => a ≥ b) ∧
    ((statsLoop records).top.map TopSlot.sz).filter (fun s => s != 0)
      = fiveLargest (recordSizes records) ∧
    (reportedTop (statsLoop records)).map TopSlot.sz = fiveLargest (recordSizes records) ∧
    (∀ w : World, statsRecords w = records → records.length ≤ INT_MAX →
      show_stats w = some (statsLoop records)) := by
  obtain ⟨hp, ht⟩ := statsLoop_pkgs_total records
  obtain ⟨hs, hl⟩ := statsLoop_top records
  have hnz : ∀ a ∈ ((recordSizes records).filter (fun s => s != 0)).insertionSort
      (fun a b => a ≥ b), a ≠ 0 := by
    intro a ha
    have := (List.perm_insertionSort _ _).subset ha
    simpa using (List.mem_filter.mp this).2
  have hz : ∀ z ∈ (recordSizes records).filter (fun s => !(s != 0)) ++ List.replicate 5 0,
      z = 0 := by
    intro z hz
    rcases List.mem_append.mp hz with h | h
    · simpa using (List.mem_filter.mp h).2
    · exact (List.mem_replicate.mp h).2
  have hboth := filter_take_append _ _ 5 hnz hz
  rw [← sort_with_zeros, ← hs] at hboth
  refine ⟨hp, ht, fun hlt => by rw [ht, Nat.mod_eq_of_lt hlt], hl, ?_, hboth.1, ?_, ?_⟩
  · rw [hs]
    exact (List.sorted_insertionSort _ _).sublist (List.take_sublist _ _)
  · unfold fiveLargest
    rw [← hboth.2]
    simp [reportedTop, List.takeWhile_map, Function.comp_def]
  · intro w hw hlen
    subst hw
    have : ¬ INT_MAX < (statsLoop (statsRecords w)).pkgs := by rw [hp]; omega
    simp [show_stats, this]

/-- Instance of C13 amended: seven records, one of size 0 and two of size 9. -/
theorem show_stats_summary_witness :
    (show_stats statsDemoWorld).map
        (fun st => (st.pkgs, st.total, (reportedTop st).map TopSlot.sz))
      = some (7, 34, [9, 9, 7, 5, 3]) ∧
    fiveLargest (recordSizes (statsRecords statsDemoWorld)) = [9, 9, 7, 5, 3] ∧
    (reportedTop (statsLoop (statsRecords statsDemoWorld))).map TopSlot.sz
      = fiveLargest (recordSizes (statsRecords statsDemoWorld)) :=
  ⟨by decide, by decide, (show_stats_summary (statsRecords statsDemoWorld)).2.2.2.2.2.2.1⟩

end Mpkg
